import Mathlib

/-!
Verification of the darwinian-research-lab core evaluation pipeline.

This file gives a shallow embedding, in Lean 4, of the parts of the
repository that the verified properties are about:

* `backtest/simulator.py` — the bar-level backtest simulator
  (`BacktestSimulator.run`, `_calculate_stop_price`,
  `_calculate_target_price`, `_calculate_position_size`,
  `_calculate_equity_curve`, and the timestamp-format handling of
  `_calculate_metrics`);
* `validation/evaluation.py` — the survival gate
  (`_apply_survival_gate`), the schedule overlay
  (`apply_schedule_override`) and `Phase3ScheduleConfig`;
* `validation/reporting.py` — `ValidationReport.get_failure_labels`;
* `validation/robust_fitness.py` — `_compute_lucky_spike_penalty` and
  the penalty aggregation of `evaluate_strategy_on_episodes`;
* `validation/overfit_tests.py` — `_jitter_strategy_params`;
* `graph/executor.py` — `GraphExecutor._topological_sort` (Kahn's
  algorithm) and the node-execution loop of `GraphExecutor.execute`.

Machine floats are modelled as `ℚ` (the pipeline only adds, multiplies,
divides and compares in the verified paths); NaN ("not yet computed")
is modelled as `Option.none`; Python exceptions are modelled with
`Except String`; Python `dict`s are modelled as ordered association
lists, matching Python 3's insertion-ordered dictionaries.
-/

namespace DRL

/-! ## Survival gate — `validation/evaluation.py`, `_apply_survival_gate` -/

/-- Embeds `_apply_survival_gate(failure_labels, fitness)`
(`validation/evaluation.py` lines 256-307).  The gate appends kill
reasons in a fixed order: `negative_fitness` is driven by the
`fitness` argument (`fitness < 0`), the other five triggers by
membership of the corresponding label in `failure_labels`.  Returns
`(decision, kill_reasons)`. -/
def applySurvivalGate (failureLabels : List String) (fitness : ℚ) :
    String × List String :=
  let killReasons : List String :=
    (if fitness < 0 then ["negative_fitness"] else [])
    ++ (if failureLabels.contains "no_holdout_trades" then ["no_holdout_trades"] else [])
    ++ (if failureLabels.contains "too_few_holdout_trades" then ["too_few_holdout_trades"] else [])
    ++ (if failureLabels.contains "too_few_holdout_days" then ["too_few_holdout_days"] else [])
    ++ (if failureLabels.contains "severe_holdout_degradation" then ["severe_holdout_degradation"] else [])
    ++ (if failureLabels.contains "holdout_sign_flip" then ["holdout_sign_flip"] else [])
  if killReasons.isEmpty then ("survive", []) else ("kill", killReasons)

/-- The five kill triggers of the gate that are driven by label
membership (all of the six canonical kill labels except
`negative_fitness`, which the gate derives from the fitness value). -/
def labelDrivenKillLabels : List String :=
  ["no_holdout_trades", "too_few_holdout_trades", "too_few_holdout_days",
   "severe_holdout_degradation", "holdout_sign_flip"]

/-- The kill reasons `_apply_survival_gate` collects, in the gate's
fixed order, as a function of the label list and the fitness value. -/
def gateMatchedTriggers (failureLabels : List String) (fitness : ℚ) : List String :=
  (if fitness < 0 then ["negative_fitness"] else [])
  ++ labelDrivenKillLabels.filter (fun l => failureLabels.contains l)

/-! ## Schedule overlay — `validation/evaluation.py` -/

/-- Embeds the fields of `StrategyEvaluationResult`
(`validation/evaluation.py` lines 46-71).  The nested validation
report is kept opaque as a string key since the overlay only copies
it. -/
structure StrategyEvaluationResult where
  graphId : String
  strategyName : String
  validationReport : String
  fitness : ℚ
  decision : String
  killReason : List String
  deriving Repr, DecidableEq

/-- Embeds the fields of `Phase3ScheduleConfig` used by
`apply_schedule_override` (`validation/evaluation.py` lines 74-143). -/
structure Phase3ScheduleConfig where
  graceGenerations : ℤ
  mutateOnKillDuringGrace : Bool
  deriving Repr, DecidableEq

/-- Embeds `Phase3ScheduleConfig.is_grace_period`
(`validation/evaluation.py` lines 130-132). -/
def Phase3ScheduleConfig.isGracePeriod (s : Phase3ScheduleConfig) (generation : ℤ) : Bool :=
  generation < s.graceGenerations

/-- Embeds `apply_schedule_override(result, schedule, generation)`
(`validation/evaluation.py` lines 533-569): during the grace period a
kill is rewritten, in a newly constructed result record, to
`mutate_only` with every other field copied unchanged; otherwise the
original result is returned as is. -/
def applyScheduleOverride (result : StrategyEvaluationResult)
    (schedule : Phase3ScheduleConfig) (generation : ℤ) :
    StrategyEvaluationResult :=
  if ¬ schedule.isGracePeriod generation then result
  else if result.decision ≠ "kill" then result
  else if ¬ schedule.mutateOnKillDuringGrace then result
  else
    { graphId := result.graphId
      strategyName := result.strategyName
      validationReport := result.validationReport
      fitness := result.fitness
      decision := "mutate_only"
      killReason := result.killReason }

/-! ## Failure labels — `validation/reporting.py`, `ValidationReport.get_failure_labels` -/

/-- The fields of a backtest metrics dict that
`ValidationReport.get_failure_labels` reads (`total_return_pct` and
`trade_count`, via `.get` with defaults 0.0 / 0). -/
structure MetricsFields where
  totalReturnPct : ℚ
  tradeCount : ℕ
  deriving Repr, DecidableEq

/-- The penalty values that `get_failure_labels` reads from the
penalties dict (each via `.get` with default 0.0). -/
structure PenaltyFields where
  concentration : ℚ
  cliff : ℚ
  signFlip : ℚ
  fragility : ℚ
  deriving Repr, DecidableEq

/-- The fields of `ValidationReport` that `get_failure_labels` uses
(`validation/reporting.py` lines 17-36). -/
structure ValidationReport where
  trainMetrics : MetricsFields
  holdoutMetrics : MetricsFields
  penalties : PenaltyFields
  fitness : ℚ
  deriving Repr, DecidableEq

/-- Embeds `ValidationReport.get_failure_labels`
(`validation/reporting.py` lines 38-87).  Labels are appended in
source order.  The distinct-trading-days check ("too_few_holdout_days")
is a commented-out stub in the source (lines 77-81: "This would require
trade log with dates - stub for now"), so no branch of this function
can produce that label. -/
def ValidationReport.getFailureLabels (r : ValidationReport) : List String :=
  (if r.trainMetrics.totalReturnPct > 5/100 ∧ r.holdoutMetrics.totalReturnPct < 0 then
      ["holdout_sign_flip"] else [])
  ++ (if r.trainMetrics.totalReturnPct > 0 ∧
        r.holdoutMetrics.totalReturnPct < r.trainMetrics.totalReturnPct * (3/10) then
      ["severe_holdout_degradation"] else [])
  ++ (if r.penalties.concentration > 1/2 then ["concentrated_returns"] else [])
  ++ (if r.penalties.cliff > 1/2 then ["performance_cliff"] else [])
  ++ (if r.penalties.signFlip > 1/5 then ["parameter_fragile"] else [])
  ++ (if r.penalties.fragility > 1/2 then ["high_fragility"] else [])
  ++ (if r.holdoutMetrics.tradeCount = 0 then ["no_holdout_trades"] else [])
  ++ (if 0 < r.holdoutMetrics.tradeCount ∧ r.holdoutMetrics.tradeCount < 10 then
      ["too_few_holdout_trades"] else [])
  ++ (if r.fitness < 0 then ["negative_fitness"] else [])

/-! ## Parameter jitter — `validation/overfit_tests.py`, `_jitter_strategy_params` -/

/-- A Python parameter value as stored in `Node.params`: numeric
(int or float) values are jittered, any other value is left alone. -/
inductive PyParam where
  | int (z : ℤ)
  | float (q : ℚ)
  | str (s : String)
  deriving Repr, DecidableEq

/-- Python 3 `round` to an integer: round half to even. -/
def pyRound (q : ℚ) : ℤ :=
  let f := ⌊q⌋
  let r := q - f
  if r < 1/2 then f
  else if 1/2 < r then f + 1
  else if 2 ∣ f then f else f + 1

/-- Embeds a graph `Node` (`graph/schema.py` lines 59-68): an id, a
type tag, a params dict, and an inputs dict mapping an input key to a
`(producer node id, producer output key)` reference. -/
structure Node where
  id : String
  type : String
  params : List (String × PyParam)
  inputs : List (String × String × String)
  deriving Repr, DecidableEq

/-- Embeds the part of `StrategyGraph` (`graph/schema.py`) that the
executor and the parameter jitter walk: the ordered node list.  (The
universe/time/outputs metadata is not read by the verified paths.) -/
structure StrategyGraph where
  nodes : List Node
  deriving Repr, DecidableEq

/-- One jittered parameter (`validation/overfit_tests.py` lines
264-279), given the draw `u = np.random.uniform(-1, 1)` consumed from
the process-global NumPy RNG: jitter_amount = value * jitter * u;
integers are rounded and floored at 2, floats floored at 0.01. -/
def jitterParam (jitter u : ℚ) : PyParam → PyParam
  | .int z => .int (max (pyRound ((z : ℚ) + (z : ℚ) * jitter * u)) 2)
  | .float q => .float (max (q + q * jitter * u) (1/100))
  | .str s => .str s

/-- Jitter one node's params dict in order, consuming one draw from
the global RNG stream `draws` (at running offset `k`) per numeric
parameter; non-numeric parameters are skipped and consume no draw. -/
def jitterParams (jitter : ℚ) (draws : ℕ → ℚ) :
    List (String × PyParam) → ℕ → List (String × PyParam) × ℕ
  | [], k => ([], k)
  | (nm, .str s) :: rest, k =>
      let (r, k2) := jitterParams jitter draws rest k
      ((nm, .str s) :: r, k2)
  | (nm, p) :: rest, k =>
      let (r, k2) := jitterParams jitter draws rest (k + 1)
      ((nm, jitterParam jitter (draws k) p) :: r, k2)

/-- Helper for `jitterStrategyParams`: jitter each node in order,
threading the global RNG offset. -/
def jitterNodes (jitter : ℚ) (draws : ℕ → ℚ) :
    List Node → ℕ → List Node × ℕ
  | [], k => ([], k)
  | n :: rest, k =>
      let (ps, k2) := jitterParams jitter draws n.params k
      let (ns, k3) := jitterNodes jitter draws rest k2
      ({ n with params := ps } :: ns, k3)

/-- Embeds `_jitter_strategy_params(strategy, jitter)`
(`validation/overfit_tests.py` lines 251-281).  The source draws each
`np.random.uniform(-1, 1)` from the process-global (unseeded) NumPy
RNG; that global stream is made explicit here as `draws` together with
the stream offset `k` at call time, which the call advances — repeated
calls in one process continue at the offset where the previous call
stopped.  Returns the jittered copy and the new offset. -/
def jitterStrategyParams (strategy : StrategyGraph) (jitter : ℚ)
    (draws : ℕ → ℚ) (k : ℕ) : StrategyGraph × ℕ :=
  let (ns, k2) := jitterNodes jitter draws strategy.nodes k
  ({ nodes := ns }, k2)

/-! ## Example inputs for the gate / overlay / labels / jitter claims -/

/-- A killed evaluation result as in spec Scenario E:
kill_reason = ["negative_fitness"]. -/
def exKilledResult : StrategyEvaluationResult :=
  { graphId := "g1", strategyName := "s1", validationReport := "r1",
    fitness := -(3/10), decision := "kill", killReason := ["negative_fitness"] }

/-- Schedule with two grace generations and mutate-on-kill enabled
(spec Scenario E). -/
def exSchedule : Phase3ScheduleConfig :=
  { graceGenerations := 2, mutateOnKillDuringGrace := true }

/-- A validation report whose holdout trades all fall on a single
distinct trading day (12 trades, positive returns, no penalties,
positive fitness): the distinct-day count (1 < 3) is exactly the
situation the "too_few_holdout_days" label is documented to cover. -/
def exFewDaysReport : ValidationReport :=
  { trainMetrics := { totalReturnPct := 1/10, tradeCount := 15 }
    holdoutMetrics := { totalReturnPct := 1/10, tradeCount := 12 }
    penalties := { concentration := 0, cliff := 0, signFlip := 0, fragility := 0 }
    fitness := 1/2 }

/-- A one-node strategy with a single numeric (float) parameter 10.0,
as jittered by `parameter_jitter`. -/
def exJitterStrategy : StrategyGraph :=
  { nodes := [{ id := "sma1", type := "sma",
                params := [("period", .float 10)], inputs := [] }] }

/-- A concrete global-RNG stream: the first uniform(-1,1) draw is 1,
every later draw is -1.  Two consecutive `_jitter_strategy_params`
calls on `exJitterStrategy` consume draws 1 and -1 respectively. -/
def exGlobalDraws : ℕ → ℚ := fun k => if k = 0 then 1 else -1

/-! ## Backtest simulator — `backtest/simulator.py`, `BacktestSimulator`

The simulator walks the bars by integer position (`run` begins with
`reset_index(drop=True)`).  A bar carries its timestamp and the
calendar date derived from it (`pd.to_datetime(...).date()`), plus the
OHLC prices the loop reads.  Entry/exit signal series are indexed by
bar position, like the reset `entry_signals`/`exit_signals` series.
Python exceptions are `Except.error`; NaN ATR entries are `none`. -/

structure Bar where
  ts : ℤ
  date : ℤ
  opn : ℚ
  high : ℚ
  low : ℚ
  close : ℚ
  deriving Repr, DecidableEq, Inhabited

/-- Embeds the `Trade` dataclass (`backtest/simulator.py` lines 17-29). -/
structure Trade where
  entryTime : ℤ
  entryPrice : ℚ
  exitTime : ℤ
  exitPrice : ℚ
  pnl : ℚ
  returnPct : ℚ
  shares : ℤ
  hitStop : Bool
  hitTarget : Bool
  exitReason : String
  deriving Repr, DecidableEq

/-- A stop/take-profit config dict: `{"type": "fixed", "points": p}` or
`{"type": "atr", "mult": m, "atr": series-or-None}` (the `atr` series
entry may be absent/None, as `run` handles via `.get('atr')`). -/
inductive PriceRule where
  | fixed (points : ℚ)
  | atr (mult : ℚ) (series : Option (List (Option ℚ)))
  deriving Repr, DecidableEq

/-- `config.get('type') == 'atr'`. -/
def PriceRule.isAtr : PriceRule → Bool
  | .fixed _ => false
  | .atr _ _ => true

/-- `config.get('atr')` (None on a fixed config). -/
def PriceRule.getAtrSeries : PriceRule → Option (List (Option ℚ))
  | .fixed _ => none
  | .atr _ s => s

/-- Embeds `_calculate_stop_price` (`backtest/simulator.py` lines
270-286): fixed → entry − points; atr → entry − atr·mult, raising
ValueError when the ATR value is missing/NaN. -/
def calcStopPrice (entryPrice : ℚ) (cfg : PriceRule) (atrValue : Option ℚ) :
    Except String ℚ :=
  match cfg with
  | .fixed points => .ok (entryPrice - points)
  | .atr mult _ =>
    match atrValue with
    | some a => .ok (entryPrice - a * mult)
    | none => .error "ATR-based stop requires valid ATR value"

/-- Embeds `_calculate_target_price` (`backtest/simulator.py` lines
288-304). -/
def calcTargetPrice (entryPrice : ℚ) (cfg : PriceRule) (atrValue : Option ℚ) :
    Except String ℚ :=
  match cfg with
  | .fixed points => .ok (entryPrice + points)
  | .atr mult _ =>
    match atrValue with
    | some a => .ok (entryPrice + a * mult)
    | none => .error "ATR-based target requires valid ATR value"

/-- A position-sizing config dict: fixed-dollar or percent-of-equity. -/
inductive SizeRule where
  | fixed (dollars : ℚ)
  | pct (p : ℚ)
  deriving Repr, DecidableEq

/-- Python `int(q)` on a float: truncation toward zero. -/
def pyInt (q : ℚ) : ℤ := q.num / q.den

/-- Embeds `_calculate_position_size` (`backtest/simulator.py` lines
306-320): whole shares, floored at 0 (no shorting). -/
def calcPositionSize (entryPrice equity : ℚ) (cfg : SizeRule) : ℤ :=
  match cfg with
  | .fixed dollars => max (pyInt (dollars / entryPrice)) 0
  | .pct p => max (pyInt (equity * p / entryPrice)) 0

/-- The `risk_limits` dict read by `run` (each key optional). -/
structure RiskLimits where
  maxLossPct : Option ℚ
  maxProfitPct : Option ℚ
  maxTrades : Option ℕ
  deriving Repr, DecidableEq

/-- The open-position dict built at entry (`backtest/simulator.py`
lines 206-211). -/
structure Position where
  entryTime : ℤ
  entryPrice : ℚ
  shares : ℤ
  atrValue : Option ℚ
  deriving Repr, DecidableEq

/-- The arguments of `BacktestSimulator.run` (with `initial_capital`
from the constructor).  A `none` exit-signal series is already
replaced by the all-false series, as `run` does. -/
structure SimParams where
  data : List Bar
  entrySignals : ℕ → Bool
  exitSignals : ℕ → Bool
  stopConfig : PriceRule
  tpConfig : PriceRule
  sizeConfig : SizeRule
  riskLimits : Option RiskLimits
  initialCapital : ℚ

/-- The loop state of `run` (lines 88-94). -/
structure SimState where
  trades : List Trade
  position : Option Position
  equity : ℚ
  dailyPnl : ℚ
  dailyTrades : ℕ
  currentDate : Option ℤ
  deriving Repr, DecidableEq

def initState (P : SimParams) : SimState :=
  { trades := [], position := none, equity := P.initialCapital,
    dailyPnl := 0, dailyTrades := 0, currentDate := none }

/-- Lines 101-106: reset the daily counters when the bar's calendar
date differs from `current_date` (or none is set yet). -/
def dailyReset (s : SimState) (barDate : ℤ) : SimState :=
  if s.currentDate ≠ some barDate then
    { s with currentDate := some barDate, dailyPnl := 0, dailyTrades := 0 }
  else s

/-- Lines 108-159 (body of the open-position branch): check stop,
then target, then the exit signal, against the NEXT bar
(`next_bar = data.iloc[i+1]`): stop wins when both stop and target are
breached (the `elif`).  On an exit, append the completed trade and
update equity and daily P&L. -/
def processExitSome (P : SimParams) (pos : Position) (s : SimState) (i : ℕ) :
    Except String SimState := do
    let nextBar := P.data.getD (i + 1) default
    let stopPrice ← calcStopPrice pos.entryPrice P.stopConfig pos.atrValue
    let targetPrice ← calcTargetPrice pos.entryPrice P.tpConfig pos.atrValue
    let exitInfo : Option (ℚ × String × Bool × Bool) :=
      if nextBar.low ≤ stopPrice then some (stopPrice, "stop", true, false)
      else if targetPrice ≤ nextBar.high then some (targetPrice, "target", false, true)
      else if P.exitSignals i then some (nextBar.opn, "signal", false, false)
      else none
    match exitInfo with
    | none => .ok s
    | some (exitPrice, reason, hitS, hitT) =>
      let pnl := (exitPrice - pos.entryPrice) * pos.shares
      let trade : Trade :=
        { entryTime := pos.entryTime, entryPrice := pos.entryPrice,
          exitTime := nextBar.ts, exitPrice := exitPrice,
          pnl := pnl, returnPct := (exitPrice - pos.entryPrice) / pos.entryPrice,
          shares := pos.shares, hitStop := hitS, hitTarget := hitT,
          exitReason := reason }
      .ok { s with trades := s.trades ++ [trade], equity := s.equity + pnl,
                   dailyPnl := s.dailyPnl + pnl, position := none }

/-- Lines 108-159: the `if position is not None` dispatch around the
exit checks. -/
def processExit (P : SimParams) (s : SimState) (i : ℕ) : Except String SimState :=
  match s.position with
  | none => .ok s
  | some pos => processExitSome P pos s i

/-- Lines 163-182: the risk-manager checks before an entry (each
`continue` skips the entry). -/
def riskBlocked (P : SimParams) (s : SimState) : Bool :=
  match P.riskLimits with
  | none => false
  | some rl =>
    (match rl.maxLossPct with
     | some mlp => decide (s.dailyPnl < -(P.initialCapital * mlp))
     | none => false)
    || (match rl.maxProfitPct with
        | some mpp => decide (P.initialCapital * mpp < s.dailyPnl)
        | none => false)
    || (match rl.maxTrades with
        | some mt => decide (mt ≤ s.dailyTrades)
        | none => false)

/-- Lines 188-193: the ATR value for the entry at bar `i` — the stop
config's series if present, else the tp config's; `none` when the
series is absent, too short, or NaN at `i`. -/
def atrForEntry (P : SimParams) (i : ℕ) : Option ℚ :=
  match P.stopConfig.getAtrSeries.orElse (fun _ => P.tpConfig.getAtrSeries) with
  | some series => if i < series.length then series.getD i none else none
  | none => none

/-- Lines 161-212: entry processing at bar `i` — only without an open
position and with the entry signal true at `i`; risk limits, then the
ATR warm-up check (silent skip), then sizing at the NEXT bar's open;
a positive share count opens the position filled at bar `i+1`'s open. -/
def processEntry (P : SimParams) (s : SimState) (i : ℕ) : SimState :=
  if s.position = none ∧ P.entrySignals i then
    if riskBlocked P s then s
    else
      let atrRequired := P.stopConfig.isAtr || P.tpConfig.isAtr
      let atrValue := if atrRequired then atrForEntry P i else none
      if atrRequired ∧ atrValue = none then s
      else
        let nextBar := P.data.getD (i + 1) default
        let shares := calcPositionSize nextBar.opn s.equity P.sizeConfig
        if 0 < shares then
          { s with
            position := some { entryTime := nextBar.ts, entryPrice := nextBar.opn,
                               shares := shares, atrValue := atrValue },
            dailyTrades := s.dailyTrades + 1 }
        else s
  else s

/-- One iteration of the `for i in range(len(data) - 1)` loop: daily
reset, then exit checks, then entry checks. -/
def simStep (P : SimParams) (s : SimState) (i : ℕ) : Except String SimState := do
  let bar := P.data.getD i default
  let s2 ← processExit P (dailyReset s bar.date) i
  .ok (processEntry P s2 i)

/-- The loop itself: `r` iterations remaining, next index `i`. -/
def simLoop (P : SimParams) : SimState → ℕ → ℕ → Except String SimState
  | s, _, 0 => .ok s
  | s, i, r + 1 => do
    let s2 ← simStep P s i
    simLoop P s2 (i + 1) r

/-- Lines 214-233: force-close a still-open position at the final
bar's close with reason "eod" (no daily-P&L update here). -/
def forceCloseEod (P : SimParams) (s : SimState) : SimState :=
  match s.position with
  | none => s
  | some pos =>
    let lastBar := P.data.getD (P.data.length - 1) default
    let pnl := (lastBar.close - pos.entryPrice) * pos.shares
    let trade : Trade :=
      { entryTime := pos.entryTime, entryPrice := pos.entryPrice,
        exitTime := lastBar.ts, exitPrice := lastBar.close,
        pnl := pnl, returnPct := (lastBar.close - pos.entryPrice) / pos.entryPrice,
        shares := pos.shares, hitStop := false, hitTarget := false,
        exitReason := "eod" }
    { s with trades := s.trades ++ [trade], equity := s.equity + pnl,
             position := none }

/-- The cumulative equity points `[(ts₀, capital)] ++ [(exit_time,
equity-after-trade) per trade]` of `_calculate_equity_curve`. -/
def equityPointsAux : List Trade → ℚ → List (ℤ × ℚ)
  | [], _ => []
  | t :: rest, eq => (t.exitTime, eq + t.pnl) :: equityPointsAux rest (eq + t.pnl)

/-- Forward-fill lookup: the equity of the last point with timestamp
≤ `t` (pandas `reindex(..., method='ffill')` over an increasing
index). -/
def lastPointLE (pts : List (ℤ × ℚ)) (t : ℤ) : Option ℚ :=
  ((pts.filter (fun p => p.1 ≤ t)).getLast?).map (fun p => p.2)

/-- Embeds `_calculate_equity_curve` (`backtest/simulator.py` lines
322-360): with no trades, a constant series at the initial capital;
otherwise cumulative-P&L points forward-filled onto the data's
timestamps, with times before the first point filled with the initial
capital (`fillna`). -/
def calcEquityCurve (trades : List Trade) (data : List Bar) (initialCapital : ℚ) :
    List ℚ :=
  if trades.isEmpty then data.map (fun _ => initialCapital)
  else
    let firstTs := (data.getD 0 default).ts
    let pts := (firstTs, initialCapital) :: equityPointsAux trades initialCapital
    data.map (fun b => (lastPointLE pts b.ts).getD initialCapital)

/-- What `run` returns (the metrics dict is computed separately by
`_calculate_metrics`, embedded below). -/
structure SimResult where
  trades : List Trade
  equityCurve : List ℚ
  deriving Repr, DecidableEq

/-- Embeds `BacktestSimulator.run` (`backtest/simulator.py` lines
56-268): iterate bars 0..len−2 (each fill needs the next bar), then
force-close at the last bar, then build the equity curve. -/
def runSim (P : SimParams) : Except String SimResult := do
  let sEnd ← simLoop P (initState P) 0 (P.data.length - 1)
  let sFin := forceCloseEod P sEnd
  .ok { trades := sFin.trades,
        equityCurve := calcEquityCurve sFin.trades P.data P.initialCapital }

/-! ## `_calculate_metrics` timestamp handling (lines 362-414)

Inside `run` the data's index was reset, so `_calculate_metrics` sees
either a `timestamp` column (when the input carried one) or the
fallback RangeIndex (when the timestamp was the input's index, which
`reset_index(drop=True)` discards); a live DatetimeIndex cannot reach
it from `run`.  In the column branch (line 384) only the local
`timestamps` is assigned — `start_ts`, `end_ts`, `delta_ts` are not —
so the later read `if start_ts is not None` (line 400) raises
UnboundLocalError.  The CAGR/Sharpe arithmetic of the other branches
(real powers and square roots) is omitted here: no verified claim
concerns those values, and in the reachable RangeIndex branch both
reduce to 0.0. -/

inductive TsFormat where
  | column
  | datetimeIndex
  | rangeIndex
  deriving Repr, DecidableEq

/-- The metric fields computed up to and including the `start_ts`
read. -/
structure MetricsHead where
  totalReturn : ℚ
  totalReturnPct : ℚ
  tradeCount : ℕ
  deriving Repr, DecidableEq

/-- Embeds `_calculate_metrics` through the timestamp-format dispatch:
zero trades return the all-neutral metrics dict (lines 366-380); the
column branch leaves `start_ts` unassigned and the function raises at
line 400; the other branches proceed normally. -/
def calculateMetricsOutcome (fmt : TsFormat) (tradeCount : ℕ)
    (equityLast initialCapital : ℚ) : Except String MetricsHead :=
  if tradeCount = 0 then
    .ok { totalReturn := 0, totalReturnPct := 0, tradeCount := 0 }
  else
    match fmt with
    | .column => .error "UnboundLocalError: local variable start_ts referenced before assignment"
    | _ =>
      .ok { totalReturn := equityLast - initialCapital,
            totalReturnPct := (equityLast - initialCapital) / initialCapital,
            tradeCount := tradeCount }

/-- `run`'s tail: the simulation followed by `_calculate_metrics` on
its trades and equity curve (`equity_curve.iloc[-1]` is the last curve
value). -/
def runWithMetrics (fmt : TsFormat) (P : SimParams) :
    Except String (SimResult × MetricsHead) := do
  let res ← runSim P
  let m ← calculateMetricsOutcome fmt res.trades.length
            ((res.equityCurve.getLast?).getD P.initialCapital) P.initialCapital
  .ok (res, m)

/-! ## Statement vocabulary for the simulator theorems -/

/-- A completed trade is well-timed: it was entered from an entry
signal observed at some bar `j`'s close and filled at bar `j+1`'s open
(price and timestamp), and — unless force-closed at end-of-data — it
exited at a bar `k+1` with `k` a strictly later loop iteration than
`j` (so the first stop/target check happens at the bar after the fill
bar), with `k` below `bound`. -/
def TradeOk (P : SimParams) (bound : ℕ) (t : Trade) : Prop :=
  ∃ j, j + 1 < P.data.length ∧ P.entrySignals j = true ∧
    t.entryPrice = (P.data.getD (j + 1) default).opn ∧
    t.entryTime = (P.data.getD (j + 1) default).ts ∧
    (t.exitReason ≠ "eod" →
      ∃ k, j < k ∧ k + 1 < P.data.length ∧ k < bound ∧
        t.exitTime = (P.data.getD (k + 1) default).ts)

/-- An open position was created from an entry signal at some bar
`j < bound` and filled at bar `j+1`'s open. -/
def PosOk (P : SimParams) (bound : ℕ) (pos : Position) : Prop :=
  ∃ j, j < bound ∧ j + 1 < P.data.length ∧ P.entrySignals j = true ∧
    pos.entryPrice = (P.data.getD (j + 1) default).opn ∧
    pos.entryTime = (P.data.getD (j + 1) default).ts

/-- The loop invariant at the head of iteration `bound`. -/
def StateOk (P : SimParams) (bound : ℕ) (s : SimState) : Prop :=
  (∀ t ∈ s.trades, TradeOk P bound t) ∧
  (∀ pos, s.position = some pos → PosOk P bound pos)

/-- The trade record `processExit` builds when it closes `pos` at
`exitPrice` for `reason` at timestamp `exitTs`. -/
def exitTradeOf (pos : Position) (exitPrice : ℚ) (reason : String)
    (hitS hitT : Bool) (exitTs : ℤ) : Trade :=
  { entryTime := pos.entryTime, entryPrice := pos.entryPrice,
    exitTime := exitTs, exitPrice := exitPrice,
    pnl := (exitPrice - pos.entryPrice) * pos.shares,
    returnPct := (exitPrice - pos.entryPrice) / pos.entryPrice,
    shares := pos.shares, hitStop := hitS, hitTarget := hitT,
    exitReason := reason }

/-- The trade `processExit` records when the stop level is breached
(`next_bar['low'] <= stop_price`). -/
def stopTradeOf (pos : Position) (stopPrice : ℚ) (exitTs : ℤ) : Trade :=
  exitTradeOf pos stopPrice "stop" true false exitTs

/-- The state `processExit` leaves after closing `pos` at `exitPrice`. -/
def exitStateOf (s : SimState) (pos : Position) (exitPrice : ℚ) (reason : String)
    (hitS hitT : Bool) (exitTs : ℤ) : SimState :=
  { s with trades := s.trades ++ [exitTradeOf pos exitPrice reason hitS hitT exitTs],
           equity := s.equity + (exitPrice - pos.entryPrice) * pos.shares,
           dailyPnl := s.dailyPnl + (exitPrice - pos.entryPrice) * pos.shares,
           position := none }

/-! ## Example inputs for the simulator claims -/

/-- Spec Scenario A bars: closes [100, 101, 99], opens
[100, 100.5, 99.5] (highs/lows chosen so no stop/target triggers). -/
def scnABars : List Bar :=
  [{ ts := 0, date := 0, opn := 100, high := 100, low := 100, close := 100 },
   { ts := 1, date := 0, opn := 201/2, high := 101, low := 100, close := 101 },
   { ts := 2, date := 0, opn := 199/2, high := 100, low := 99, close := 99 }]

/-- Spec Scenario A: entry signal true only at bar 0; wide fixed
stop/target (1000 points) so neither can trigger; $1000 fixed
sizing. -/
def scnAParams : SimParams :=
  { data := scnABars
    entrySignals := fun i => i == 0
    exitSignals := fun _ => false
    stopConfig := .fixed 1000
    tpConfig := .fixed 1000
    sizeConfig := .fixed 1000
    riskLimits := none
    initialCapital := 100000 }

/-- The Scenario A outcome: one trade entered at 100.5 (bar 1's open,
9 shares), force-closed at the final close 99. -/
def scnAResult : SimResult :=
  { trades := [{ entryTime := 1, entryPrice := 201/2, exitTime := 2, exitPrice := 99,
                 pnl := -27/2, returnPct := -1/67, shares := 9,
                 hitStop := false, hitTarget := false, exitReason := "eod" }],
    equityCurve := [100000, 100000, 199973/2] }

/-- Scenario B counterexample data: entry signal at bar 0, fill at bar
1 whose own low 97 breaches the stop 98 and high 106 breaches the
target 105 — but no later bar breaches either level. -/
def fillBarBreachBars : List Bar :=
  [{ ts := 0, date := 0, opn := 100, high := 100, low := 100, close := 100 },
   { ts := 1, date := 0, opn := 100, high := 106, low := 97, close := 100 },
   { ts := 2, date := 0, opn := 100, high := 100, low := 100, close := 100 }]

/-- Entry 100, fixed stop 2 points (stop 98), fixed target 5 points
(target 105), $1000 fixed sizing. -/
def fillBarBreachParams : SimParams :=
  { data := fillBarBreachBars
    entrySignals := fun i => i == 0
    exitSignals := fun _ => false
    stopConfig := .fixed 2
    tpConfig := .fixed 5
    sizeConfig := .fixed 1000
    riskLimits := none
    initialCapital := 100000 }

/-- Amended Scenario B data: the breach (low 97, high 106) happens on
bar 2 — the bar after the fill bar — where the simulator does check,
with both levels breached on the same bar. -/
def afterFillBreachBars : List Bar :=
  [{ ts := 0, date := 0, opn := 100, high := 100, low := 100, close := 100 },
   { ts := 1, date := 0, opn := 100, high := 100, low := 100, close := 100 },
   { ts := 2, date := 0, opn := 100, high := 106, low := 97, close := 100 }]

def afterFillBreachParams : SimParams :=
  { data := afterFillBreachBars
    entrySignals := fun i => i == 0
    exitSignals := fun _ => false
    stopConfig := .fixed 2
    tpConfig := .fixed 5
    sizeConfig := .fixed 1000
    riskLimits := none
    initialCapital := 100000 }

/-- C10 witness input: entry signal true only on the final bar of
three. -/
def lastBarSignalParams : SimParams :=
  { data := scnABars
    entrySignals := fun i => i == 2
    exitSignals := fun _ => false
    stopConfig := .fixed 2
    tpConfig := .fixed 5
    sizeConfig := .fixed 1000
    riskLimits := none
    initialCapital := 100000 }

/-- C8 witness input: two bars, entry at bar 0, filled at bar 1 and
force-closed there with one trade. -/
def oneTradeParams : SimParams :=
  { data := [{ ts := 0, date := 0, opn := 100, high := 100, low := 100, close := 100 },
             { ts := 1, date := 0, opn := 100, high := 100, low := 100, close := 101 }]
    entrySignals := fun i => i == 0
    exitSignals := fun _ => false
    stopConfig := .fixed 1000
    tpConfig := .fixed 1000
    sizeConfig := .fixed 1000
    riskLimits := none
    initialCapital := 100000 }

/-! ## Robust fitness aggregation — `validation/robust_fitness.py`

`statistics.median` sorts the list and takes the middle value (or the
mean of the two middle values for even length); the sort is modelled
with an insertion sort, which computes the same sorted list.
`statistics.stdev` (the sample standard deviation) appears only in the
comparison `std > 0.3`, which is represented square-root-free by the
equivalent `variance > 0.09` (both sides non-negative).  Python
`max`/`min`/`median` raise on an empty list; the theorems carry the
non-empty hypothesis. -/

def insertSortedQ (x : ℚ) : List ℚ → List ℚ
  | [] => [x]
  | y :: ys => if x ≤ y then x :: y :: ys else y :: insertSortedQ x ys

def sortQ (l : List ℚ) : List ℚ := l.foldr insertSortedQ []

/-- `statistics.median`. -/
def pyMedian (l : List ℚ) : ℚ :=
  let s := sortQ l
  let n := s.length
  if n % 2 = 1 then s.getD (n / 2) 0
  else (s.getD (n / 2 - 1) 0 + s.getD (n / 2) 0) / 2

/-- Python `max` over a list (unreachable empty case gives 0). -/
def pyMax : List ℚ → ℚ
  | [] => 0
  | x :: xs => xs.foldl max x

/-- Python `min` over a list (unreachable empty case gives 0). -/
def pyMin : List ℚ → ℚ
  | [] => 0
  | x :: xs => xs.foldl min x

/-- The square of `statistics.stdev`: sample variance with the n−1
divisor. -/
def sampleVariance (l : List ℚ) : ℚ :=
  let n : ℚ := l.length
  let m := l.sum / n
  ((l.map (fun x => (x - m) ^ 2)).sum) / (n - 1)

/-- Embeds `_compute_lucky_spike_penalty(fitnesses)`
(`validation/robust_fitness.py` lines 271-287): 0 with fewer than 2
positive episode fitnesses or non-positive positive-sum (dead branch
over exact rationals), else 0.2 exactly when the best positive episode
holds at least 60% of the summed positive fitness. -/
def computeLuckySpikePenalty (fitnesses : List ℚ) : ℚ :=
  let positive := fitnesses.filter (fun f => 0 < f)
  if positive.length < 2 then 0
  else
    let totalPositive := positive.sum
    if totalPositive ≤ 0 then 0
    else if 3/5 ≤ pyMax positive / totalPositive then 1/5
    else 0

/-- The aggregate fields of `RobustAggregateResult` computed at
`validation/robust_fitness.py` lines 237-268 (`var_fitness` stands for
the square of `std_fitness`). -/
structure RobustAggregate where
  aggregatedFitness : ℚ
  medianFitness : ℚ
  worstFitness : ℚ
  bestFitness : ℚ
  varFitness : ℚ
  worstCasePenalty : ℚ
  dispersionPenalty : ℚ
  singleRegimePenalty : ℚ
  luckySpikePenalty : ℚ
  deriving Repr, DecidableEq

/-- Embeds the aggregation block of `evaluate_strategy_on_episodes`
(`validation/robust_fitness.py` lines 237-268): best/worst/median and
sample deviation of the episode fitnesses, the worst-case penalty
(0.5 when worst < −0.5), the dispersion penalty (0.25 when std > 0.3,
i.e. variance > 0.09), the single-regime penalty (computed from the
regime tags by `_compute_single_regime_penalty` and passed in here),
the lucky-spike penalty, and aggregated = median − Σ penalties. -/
def aggregateEpisodeFitnesses (fitnesses : List ℚ) (singleRegimePenalty : ℚ) :
    RobustAggregate :=
  let best := pyMax fitnesses
  let worst := pyMin fitnesses
  let med := pyMedian fitnesses
  let varVal := if 1 < fitnesses.length then sampleVariance fitnesses else 0
  let worstCasePenalty : ℚ := if worst < -(1/2) then 1/2 else 0
  let dispersionPenalty : ℚ := if 9/100 < varVal then 1/4 else 0
  let luckySpikePenalty := computeLuckySpikePenalty fitnesses
  { aggregatedFitness :=
      med - (worstCasePenalty + dispersionPenalty + singleRegimePenalty + luckySpikePenalty),
    medianFitness := med, worstFitness := worst, bestFitness := best,
    varFitness := varVal,
    worstCasePenalty := worstCasePenalty, dispersionPenalty := dispersionPenalty,
    singleRegimePenalty := singleRegimePenalty, luckySpikePenalty := luckySpikePenalty }

/-- The single Scenario A trade: entered at bar 1's open 100.5,
force-closed at the final close 99. -/
def scnATrade : Trade :=
  { entryTime := 1, entryPrice := 201/2, exitTime := 2, exitPrice := 99,
    pnl := -27/2, returnPct := -1/67, shares := 9,
    hitStop := false, hitTarget := false, exitReason := "eod" }

/-- What the simulator actually produces on `fillBarBreachParams`: the
fill bar's breach of both levels is never examined, so the trade is
force-closed "eod" at 100 — not exited at the stop 98. -/
def fillBarBreachResult : SimResult :=
  { trades := [{ entryTime := 1, entryPrice := 100, exitTime := 2, exitPrice := 100,
                 pnl := 0, returnPct := 0, shares := 10,
                 hitStop := false, hitTarget := false, exitReason := "eod" }],
    equityCurve := [100000, 100000, 100000] }

/-- The trade produced on `afterFillBreachParams`: both levels are
breached on bar 2 (the bar after the fill bar) and the stop wins. -/
def afterFillTrade : Trade :=
  { entryTime := 1, entryPrice := 100, exitTime := 2, exitPrice := 98,
    pnl := -20, returnPct := -1/50, shares := 10,
    hitStop := true, hitTarget := false, exitReason := "stop" }

def afterFillBreachResult : SimResult :=
  { trades := [afterFillTrade], equityCurve := [100000, 100000, 99980] }

/-- The one-trade outcome of `oneTradeParams`. -/
def oneTradeResult : SimResult :=
  { trades := [{ entryTime := 1, entryPrice := 100, exitTime := 1, exitPrice := 101,
                 pnl := 10, returnPct := 1/100, shares := 10,
                 hitStop := false, hitTarget := false, exitReason := "eod" }],
    equityCurve := [100000, 100010] }

/-! ## Graph executor — `graph/executor.py`, `GraphExecutor`

`_topological_sort` (lines 78-106) builds, per Python dict/defaultdict
semantics (insertion-ordered, update-in-place), the in-degree table
and producer→consumer adjacency from the declared inputs, runs Kahn's
algorithm with a FIFO queue, and raises "Graph contains cycles" when
the sorted count differs from the node count (the defensive
re-check).  `execute` (lines 39-57) runs the sorted nodes in order,
inserting each node's outputs into the context keyed by
`(node id, output key)`; `_execute_node` (lines 108-133) first
resolves every declared input from the context, raising when a
referenced output is unavailable, and then dispatches on the node
type.  The dispatch table of per-type evaluators (pure functions of
resolved inputs and params, lines 135-439) is abstracted as the
`evalNode` parameter: the verified claims concern ordering and cycle
handling, not the indicator arithmetic.  `execute` also calls
`_validate_graph` first; its structural checks (unique ids, resolvable
references) appear as the `Wellformed` hypothesis of the theorems, and
its DFS cycle pre-check (`graph/schema.py`, `validate_structure`) is
omitted so that the theorems exercise the defensive Kahn re-check,
which reports the same cyclic graphs. -/

/-- The producer node ids referenced by a node's inputs, with
multiplicity, in declaration order (`for ref_node_id, _ in
node.inputs.values()`). -/
def producersOf (n : Node) : List String := n.inputs.map (fun x => x.2.1)

/-- Dict lookup in the in-degree table (keys are exactly the node ids
throughout, so the 0 default never fires under `Wellformed`). -/
def alGet (al : List (String × ℤ)) (k : String) : ℤ :=
  match al.find? (fun p => p.1 = k) with
  | some p => p.2
  | none => 0

/-- Dict update in place: rewrite the first entry with key `k`
(every key is present throughout, so the no-op case never fires). -/
def alSet (al : List (String × ℤ)) (k : String) (v : ℤ) : List (String × ℤ) :=
  match al with
  | [] => []
  | p :: rest => if p.1 = k then (k, v) :: rest else p :: alSet rest k v

/-- The in-degree table after the edge-building loop: each node's id
mapped to its input count (one `in_degree[node.id] += 1` per declared
input). -/
def initDegrees (nodes : List Node) : List (String × ℤ) :=
  nodes.map (fun n => (n.id, ((producersOf n).length : ℤ)))

/-- The adjacency list entry `adj_list[p]` after the edge-building
loop: consumers of `p` in node order, with one occurrence per
declared input that references `p`. -/
def adjOf (nodes : List Node) (p : String) : List String :=
  nodes.bind (fun n =>
    (producersOf n).filterMap (fun r => if r = p then some n.id else none))

/-- Relax one outgoing edge of the popped node: decrement the
neighbor's in-degree, and append it to the queue when the degree
reaches exactly 0. -/
def relaxOne (st : List (String × ℤ) × List String) (nb : String) :
    List (String × ℤ) × List String :=
  let d := alGet st.1 nb
  let deg2 := alSet st.1 nb (d - 1)
  if d - 1 = 0 then (deg2, st.2 ++ [nb]) else (deg2, st.2)

/-- Σ of the positive in-degrees — the termination measure together
with the queue length. -/
def degSum (deg : List (String × ℤ)) : ℕ :=
  (deg.map (fun p => p.2.toNat)).sum

/-- `alGet` on a matching head. -/
theorem alGet_cons_self (k : String) (v : ℤ) (tl : List (String × ℤ)) :
    alGet ((k, v) :: tl) k = v := by
  simp [alGet]

/-- `alGet` skips a non-matching head. -/
theorem alGet_cons_ne (k nb : String) (v : ℤ) (tl : List (String × ℤ))
    (h : k ≠ nb) : alGet ((k, v) :: tl) nb = alGet tl nb := by
  simp [alGet, List.find?_cons_of_neg, h]

/-- `alGet` on the empty table. -/
theorem alGet_nil (nb : String) : alGet [] nb = 0 := rfl

/-- `alSet` rewrites a matching head. -/
theorem alSet_cons_self (k : String) (v w : ℤ) (tl : List (String × ℤ)) :
    alSet ((k, v) :: tl) k w = (k, w) :: tl := by
  simp [alSet]

/-- `alSet` skips a non-matching head. -/
theorem alSet_cons_ne (k nb : String) (v w : ℤ) (tl : List (String × ℤ))
    (h : k ≠ nb) : alSet ((k, v) :: tl) nb w = (k, v) :: alSet tl nb w := by
  simp [alSet, h]

/-- `degSum` on a cons cell. -/
theorem degSum_cons (k : String) (v : ℤ) (tl : List (String × ℤ)) :
    degSum ((k, v) :: tl) = v.toNat + degSum tl := by
  simp [degSum]

/-- Decrementing one entry (and counting a push when it reaches 0)
does not grow `queue length + degSum` (termination helper). -/
theorem degSum_relax (nb : String) : ∀ (deg : List (String × ℤ)),
    degSum (alSet deg nb (alGet deg nb - 1)) +
      (if alGet deg nb - 1 = 0 then 1 else 0) ≤ degSum deg
  | [] => by simp [alGet, alSet, degSum]
  | (k, v) :: tl => by
    by_cases hk : k = nb
    · subst hk
      rw [alGet_cons_self, alSet_cons_self, degSum_cons, degSum_cons]
      split <;> omega
    · have ih := degSum_relax nb tl
      rw [alGet_cons_ne k nb v tl hk, alSet_cons_ne k nb v _ tl hk,
        degSum_cons, degSum_cons]
      omega

/-- `relaxOne` does not grow the measure (termination helper). -/
theorem relaxOne_measure (st : List (String × ℤ) × List String) (nb : String) :
    (relaxOne st nb).2.length + degSum (relaxOne st nb).1 ≤
      st.2.length + degSum st.1 := by
  have h := degSum_relax nb st.1
  simp only [relaxOne]
  split
  · rename_i hz
    rw [if_pos hz] at h
    dsimp only
    simp only [List.length_append, List.length_cons, List.length_nil]
    omega
  · rename_i hz
    rw [if_neg hz] at h
    dsimp only
    omega

/-- Folding `relaxOne` over the adjacency list does not grow the
measure (termination helper). -/
theorem foldl_relaxOne_measure : ∀ (l : List String) (st : List (String × ℤ) × List String),
    (l.foldl relaxOne st).2.length + degSum (l.foldl relaxOne st).1 ≤
      st.2.length + degSum st.1
  | [], st => le_refl _
  | x :: t, st => by
    calc ((x :: t).foldl relaxOne st).2.length + degSum ((x :: t).foldl relaxOne st).1
        = (t.foldl relaxOne (relaxOne st x)).2.length +
            degSum (t.foldl relaxOne (relaxOne st x)).1 := by rw [List.foldl_cons]
      _ ≤ (relaxOne st x).2.length + degSum (relaxOne st x).1 :=
          foldl_relaxOne_measure t (relaxOne st x)
      _ ≤ st.2.length + degSum st.1 := relaxOne_measure st x

/-- The `while queue:` loop of Kahn's algorithm: pop left, record the
node, relax its outgoing edges (enqueueing neighbors whose degree
reaches 0), repeat; returns the sorted ids. -/
def kahnLoop (adj : String → List String) :
    List (String × ℤ) → List String → List String → List String
  | _, [], sorted => sorted
  | deg, q :: rest, sorted =>
    let st := (adj q).foldl relaxOne (deg, rest)
    kahnLoop adj st.1 st.2 (sorted ++ [q])
  termination_by deg queue sorted => queue.length + degSum deg
  decreasing_by
    calc ((adj q).foldl relaxOne (deg, rest)).2.length +
          degSum ((adj q).foldl relaxOne (deg, rest)).1
        ≤ rest.length + degSum deg := foldl_relaxOne_measure (adj q) (deg, rest)
      _ < (q :: rest).length + degSum deg := by simp

/-- Embeds `GraphExecutor._topological_sort` (`graph/executor.py`
lines 78-106): in-degree table, adjacency, Kahn loop, the defensive
count re-check raising "Graph contains cycles", and the final mapping
of sorted ids back to nodes via `node_map` (first match; under the
unique-id hypothesis this is the Python dict lookup). -/
def topologicalSort (g : StrategyGraph) : Except String (List Node) :=
  let inDegree := initDegrees g.nodes
  let queue := (inDegree.filter (fun p => p.2 = 0)).map (fun p => p.1)
  let sortedIds := kahnLoop (adjOf g.nodes) inDegree queue []
  if sortedIds.length ≠ g.nodes.length then .error "Graph contains cycles"
  else .ok (sortedIds.filterMap (fun i => g.nodes.find? (fun n => n.id = i)))

/-- Context lookup (`context[(node_id, output_key)]`). -/
def ctxFind {α : Type} (ctx : List ((String × String) × α)) (k : String × String) :
    Option α :=
  (ctx.find? (fun p => p.1 = k)).map (fun p => p.2)

/-- The input-resolution loop of `_execute_node` (lines 121-129):
raise when a referenced output is not in the context. -/
def resolveInputs {α : Type} (ctx : List ((String × String) × α)) :
    List (String × String × String) → Except String (List (String × α))
  | [] => .ok []
  | (ik, r, rk) :: rest =>
    match ctxFind ctx (r, rk) with
    | none => .error "references unavailable output"
    | some v => (resolveInputs ctx rest).map (fun l => (ik, v) :: l)

/-- `_execute_node`: resolve the declared inputs, then dispatch
(`evalNode`), keying each produced output by `(node.id, output_key)`. -/
def executeNode {α : Type} (evalNode : Node → List (String × α) → List (String × α))
    (n : Node) (ctx : List ((String × String) × α)) :
    Except String (List ((String × String) × α)) :=
  (resolveInputs ctx n.inputs).map
    (fun ins => (evalNode n ins).map (fun p => ((n.id, p.1), p.2)))

/-- The `for node in sorted_nodes` loop of `execute` (lines 46-55):
run each node once, in order, appending its outputs to the context. -/
def executeSorted {α : Type} (evalNode : Node → List (String × α) → List (String × α)) :
    List Node → List ((String × String) × α) →
    Except String (List ((String × String) × α))
  | [], ctx => .ok ctx
  | n :: rest, ctx => do
    let outs ← executeNode evalNode n ctx
    executeSorted evalNode rest (ctx ++ outs)

/-- Embeds `GraphExecutor.execute` (lines 26-57): topologically sort,
then execute the nodes in order into a fresh context. -/
def execute {α : Type} (evalNode : Node → List (String × α) → List (String × α))
    (g : StrategyGraph) : Except String (List ((String × String) × α)) :=
  match topologicalSort g with
  | .error e => .error e
  | .ok sorted => executeSorted evalNode sorted []

/-! ## Statement vocabulary for the executor theorems -/

/-- The node ids in declaration order. -/
def NodeIds (g : StrategyGraph) : List String := g.nodes.map (fun n => n.id)

/-- The structural facts `_validate_graph` establishes before the
sort: unique node ids and every input reference resolving to an
existing node id. -/
def Wellformed (g : StrategyGraph) : Prop :=
  (NodeIds g).Nodup ∧
  ∀ n ∈ g.nodes, ∀ r ∈ producersOf n, r ∈ NodeIds g

/-- A producer→consumer edge: some node with id `c` declares an input
produced by `p`. -/
def edgeB (g : StrategyGraph) (p c : String) : Bool :=
  g.nodes.any (fun n => n.id = c && (producersOf n).contains p)

/-- A path along producer→consumer edges through the listed
intermediate ids. -/
def isPath (g : StrategyGraph) : String → List String → String → Prop
  | x, [], y => edgeB g x y = true
  | x, h :: t, y => edgeB g x h = true ∧ isPath g h t y

/-- The graph contains a (nonempty) directed cycle. -/
def hasCycle (g : StrategyGraph) : Prop := ∃ x l, isPath g x l x

/-- `rk` is an output key of producer `p` that some node's input
references. -/
def ReferencedKey (g : StrategyGraph) (p rk : String) : Prop :=
  ∃ c ∈ g.nodes, ∃ ik, (ik, p, rk) ∈ c.inputs

/-- The abstract node evaluator emits every output key that some
consumer references (what the registry's IO specs guarantee for the
built-in evaluators). -/
def Emits {α : Type} (evalNode : Node → List (String × α) → List (String × α))
    (g : StrategyGraph) : Prop :=
  ∀ nd ∈ g.nodes, ∀ (ins : List (String × α)) (rk : String),
    ReferencedKey g nd.id rk → rk ∈ (evalNode nd ins).map (fun p => p.1)

/-- The context holds every referenced output of every producer in
`done`. -/
def CtxHas {α : Type} (g : StrategyGraph) (ctx : List ((String × String) × α))
    (done : List String) : Prop :=
  ∀ p ∈ done, ∀ rk, ReferencedKey g p rk → ∃ v, ctxFind ctx (p, rk) = some v

/-- The two-node acyclic graph used as the executor witness. -/
def exAcyclicGraph : StrategyGraph :=
  { nodes := [{ id := "a", type := "market_data", params := [], inputs := [] },
              { id := "b", type := "sma", params := [("period", .int 3)],
                inputs := [("series", "a", "close")] }] }

/-- A concrete node evaluator for the witness: every node emits the
keys "close" and "sma". -/
def exEvalNode : Node → List (String × ℕ) → List (String × ℕ) :=
  fun _ _ => [("close", 1), ("sma", 2)]

/-! # Theorems -/

/-- `none = some a` rewrites to `False` (evaluation helper). -/
theorem optNoneNeSomeEq {α : Type} (a : α) : ((none : Option α) = some a) = False := by
  simp

/-- `some a = none` rewrites to `False` (evaluation helper). -/
theorem optSomeNeNoneEq {α : Type} (a : α) : ((some a : Option α) = none) = False := by
  simp

/-- `some a = some b` rewrites to `a = b` (evaluation helper). -/
theorem optSomeInjEq {α : Type} (a b : α) : ((some a : Option α) = some b) = (a = b) := by
  simp

/-- `Except.ok x >>= f` reduces (evaluation helper). -/
theorem exceptBindOk {e a b : Type} (x : a) (f : a → Except e b) :
    (Except.ok x : Except e a) >>= f = f x := rfl

/-- `(Except.ok x).bind f` reduces (evaluation helper). -/
theorem exceptBindOkB {e a b : Type} (x : a) (f : a → Except e b) :
    (Except.ok x : Except e a).bind f = f x := rfl

/-- `simLoop` with no iterations left. -/
theorem simLoop_zero (P : SimParams) (s : SimState) (i : ℕ) :
    simLoop P s i 0 = .ok s := rfl

/-- `simLoop` unfolds one iteration. -/
theorem simLoop_succ (P : SimParams) (s : SimState) (i r : ℕ) :
    simLoop P s i (r + 1) = (simStep P s i).bind (fun s2 => simLoop P s2 (i + 1) r) := by
  rfl

/-- Appending an `if`-guarded list distributes over the `if`. -/
theorem ite_append_distrib (c : Prop) [Decidable c] (a b r : List String) :
    (if c then a else b) ++ r = if c then a ++ r else b ++ r := by
  split <;> rfl

/-- The survival gate equals the branch on `gateMatchedTriggers`: its
internal `kill_reasons` list is exactly the matched triggers in the
gate's fixed order. -/
theorem applySurvivalGate_eq_matched (labels : List String) (fitness : ℚ) :
    applySurvivalGate labels fitness =
      if gateMatchedTriggers labels fitness = [] then ("survive", [])
      else ("kill", gateMatchedTriggers labels fitness) := by
  simp only [applySurvivalGate, gateMatchedTriggers, labelDrivenKillLabels,
    List.filter_cons, List.filter_nil, List.append_assoc, ite_append_distrib,
    List.cons_append, List.nil_append, List.append_nil, List.isEmpty_iff]

/-- C3 (amended).  The gate is a pure function of (failure labels,
fitness), but the `negative_fitness` trigger is driven by the fitness
argument (`fitness < 0`), not by the presence of the
"negative_fitness" string in `failure_labels`.  For every label list
and fitness: whenever any trigger matches, the decision is "kill" with
`kill_reason` exactly the matched triggers in the gate's fixed order
(for the five label-driven triggers, exactly the requested subset);
with no matched trigger — in particular an empty label list and
non-negative fitness — the decision is "survive" with empty
`kill_reason`; the gate never emits "mutate_only"; and
`failure_labels = ["no_holdout_trades"]` with fitness 0.2 yields
"kill" despite the positive fitness (spec Scenario C). -/
theorem survival_gate_characterization (labels : List String) (fitness : ℚ) :
    (gateMatchedTriggers labels fitness ≠ [] →
      applySurvivalGate labels fitness = ("kill", gateMatchedTriggers labels fitness)) ∧
    (gateMatchedTriggers labels fitness = [] →
      applySurvivalGate labels fitness = ("survive", [])) ∧
    ((applySurvivalGate labels fitness).1 = "kill" ∨
      (applySurvivalGate labels fitness).1 = "survive") ∧
    (0 ≤ fitness → labels = [] → applySurvivalGate labels fitness = ("survive", [])) ∧
    applySurvivalGate ["no_holdout_trades"] (1/5) = ("kill", ["no_holdout_trades"]) := by
  refine ⟨?_, ?_, ?_, ?_, ?_⟩
  · intro h; rw [applySurvivalGate_eq_matched]; simp [h]
  · intro h; rw [applySurvivalGate_eq_matched]; simp [h]
  · rw [applySurvivalGate_eq_matched]; split <;> simp
  · intro hf hl
    rw [applySurvivalGate_eq_matched]
    subst hl
    simp [gateMatchedTriggers, labelDrivenKillLabels, not_lt.mpr hf]
  · norm_num [applySurvivalGate]
    decide

/-- C3 counterexample to the claim as stated: the subset
`{negative_fitness}` of the six kill labels, passed as
`failure_labels` with (non-negative) fitness 0.2, does not yield
`("kill", ["negative_fitness"])`: the gate returns
`("survive", [])`, because it checks `fitness < 0` and never reads
the "negative_fitness" string from the label list. -/
theorem survival_gate_negative_fitness_label_ignored :
    applySurvivalGate ["negative_fitness"] (1/5) = ("survive", []) ∧
    ("survive", ([] : List String)) ≠ ("kill", ["negative_fitness"]) := by
  constructor
  · norm_num [applySurvivalGate]
    decide
  · decide

/-- Witness for `survival_gate_characterization` at a concrete input:
labels {no_holdout_trades, holdout_sign_flip} with fitness −1 match
three triggers (negative fitness plus the two labels), and the gate
kills with exactly those reasons in its fixed order. -/
theorem survival_gate_characterization_witness :
    gateMatchedTriggers ["no_holdout_trades", "holdout_sign_flip"] (-1) =
      ["negative_fitness", "no_holdout_trades", "holdout_sign_flip"] ∧
    applySurvivalGate ["no_holdout_trades", "holdout_sign_flip"] (-1) =
      ("kill", ["negative_fitness", "no_holdout_trades", "holdout_sign_flip"]) := by
  have h1 : gateMatchedTriggers ["no_holdout_trades", "holdout_sign_flip"] (-1) =
      ["negative_fitness", "no_holdout_trades", "holdout_sign_flip"] := by
    norm_num [gateMatchedTriggers, labelDrivenKillLabels]
    decide
  refine ⟨h1, ?_⟩
  have h2 := (survival_gate_characterization ["no_holdout_trades", "holdout_sign_flip"] (-1)).1
  rw [h1] at h2
  exact h2 (by decide)

/-- C7.  During the grace period (generation < grace_generations, with
mutate-on-kill enabled) a "kill" result is rewritten to a new result
record with decision "mutate_only" and every other field (graph id,
strategy name, fitness, kill_reason, validation report) unchanged; at
or beyond the grace period the result is returned unchanged (so a kill
stays a kill). -/
theorem schedule_overlay_grace (result : StrategyEvaluationResult)
    (schedule : Phase3ScheduleConfig) (generation : ℤ) :
    (result.decision = "kill" → generation < schedule.graceGenerations →
      schedule.mutateOnKillDuringGrace = true →
      applyScheduleOverride result schedule generation =
        { result with decision := "mutate_only" }) ∧
    (schedule.graceGenerations ≤ generation →
      applyScheduleOverride result schedule generation = result) := by
  constructor
  · intro hd hg hm
    simp [applyScheduleOverride, Phase3ScheduleConfig.isGracePeriod, hd, hg, hm]
  · intro hg
    simp [applyScheduleOverride, Phase3ScheduleConfig.isGracePeriod, not_lt.mpr hg]

/-- Witness for `schedule_overlay_grace`: spec Scenario E.  A kill
with kill_reason ["negative_fitness"] at generation 0 under
grace_generations = 2 becomes "mutate_only" with labels and fitness
unchanged; the same result at generation 2 remains "kill". -/
theorem schedule_overlay_grace_witness :
    applyScheduleOverride exKilledResult exSchedule 0 =
      { exKilledResult with decision := "mutate_only" } ∧
    (applyScheduleOverride exKilledResult exSchedule 0).killReason = ["negative_fitness"] ∧
    (applyScheduleOverride exKilledResult exSchedule 0).fitness = exKilledResult.fitness ∧
    applyScheduleOverride exKilledResult exSchedule 2 = exKilledResult ∧
    (applyScheduleOverride exKilledResult exSchedule 2).decision = "kill" := by
  have h0 := (schedule_overlay_grace exKilledResult exSchedule 0).1 rfl (by decide) rfl
  have h2 := (schedule_overlay_grace exKilledResult exSchedule 2).2 (by decide)
  refine ⟨h0, ?_, ?_, h2, ?_⟩
  · rw [h0]; rfl
  · rw [h0]
  · rw [h2]; rfl

/-- No branch of `get_failure_labels` produces "too_few_holdout_days"
(the check is a commented-out stub in the source). -/
theorem getFailureLabels_no_days_label (r : ValidationReport) :
    (r.getFailureLabels.contains "too_few_holdout_days") = false := by
  simp only [ValidationReport.getFailureLabels]
  split_ifs <;> decide

/-- C9.  The validation report never emits the "too_few_holdout_days"
failure label — its distinct-trading-days check is a commented-out
stub (`validation/reporting.py` lines 77-81), although the label
semantics block of `validation/evaluation.py` (lines 20-40) documents
it as generated automatically by `get_failure_labels` and auto-kill.
In particular, for a concrete report whose 12 holdout trades all fall
on a single distinct trading day (fewer than 3) and which passes every
other check, the labels come out empty and the survival gate returns
("survive", []) instead of killing with "too_few_holdout_days". -/
theorem too_few_holdout_days_not_wired :
    (∀ r : ValidationReport, (r.getFailureLabels.contains "too_few_holdout_days") = false) ∧
    exFewDaysReport.getFailureLabels = [] ∧
    applySurvivalGate exFewDaysReport.getFailureLabels exFewDaysReport.fitness =
      ("survive", []) := by
  refine ⟨getFailureLabels_no_days_label, ?_, ?_⟩
  · norm_num [ValidationReport.getFailureLabels, exFewDaysReport]
  · norm_num [ValidationReport.getFailureLabels, exFewDaysReport, applySurvivalGate]

/-- C4.  The parameter jitter draws from the process-global NumPy RNG
stream, which is not part of the fixed (graph, data, seed, config)
tuple: two consecutive `_jitter_strategy_params` calls (the second
starting at the stream offset where the first stopped, as happens
across two repeated evaluations in one process) produce different
jittered strategies from the identical input strategy — here a float
parameter 10.0 jittered by ±10% becomes 11.0 under the first call's
draw u = 1 and 9.0 under the second call's draw u = −1 — so the
jittered holdout backtests, and with them the sign-flip/fragility
penalties and the fitness, are not functions of (graph, data, seed,
config). -/
theorem jitter_depends_on_global_rng :
    (jitterStrategyParams exJitterStrategy (1/10) exGlobalDraws 0).1 =
      { nodes := [{ id := "sma1", type := "sma",
                    params := [("period", .float 11)], inputs := [] }] } ∧
    (jitterStrategyParams exJitterStrategy (1/10) exGlobalDraws 0).2 = 1 ∧
    (jitterStrategyParams exJitterStrategy (1/10) exGlobalDraws 1).1 =
      { nodes := [{ id := "sma1", type := "sma",
                    params := [("period", .float 9)], inputs := [] }] } ∧
    (jitterStrategyParams exJitterStrategy (1/10) exGlobalDraws 0).1 ≠
      (jitterStrategyParams exJitterStrategy (1/10) exGlobalDraws 1).1 := by
  refine ⟨?_, ?_, ?_, ?_⟩ <;>
    norm_num [jitterStrategyParams, jitterNodes, jitterParams, jitterParam,
      exJitterStrategy, exGlobalDraws]

theorem TradeOk_mono (P : SimParams) (b b2 : ℕ) (t : Trade) (hbb : b ≤ b2)
    (h : TradeOk P b t) : TradeOk P b2 t := by
  obtain ⟨j, h1, h2, h3, h4, h5⟩ := h
  refine ⟨j, h1, h2, h3, h4, fun hne => ?_⟩
  obtain ⟨k, hk1, hk2, hk3, hk4⟩ := h5 hne
  exact ⟨k, hk1, hk2, lt_of_lt_of_le hk3 hbb, hk4⟩

theorem PosOk_mono (P : SimParams) (b b2 : ℕ) (pos : Position) (hbb : b ≤ b2)
    (h : PosOk P b pos) : PosOk P b2 pos := by
  obtain ⟨j, h1, h2, h3, h4, h5⟩ := h
  exact ⟨j, lt_of_lt_of_le h1 hbb, h2, h3, h4, h5⟩

theorem dailyReset_trades (s : SimState) (d : ℤ) : (dailyReset s d).trades = s.trades := by
  unfold dailyReset; split <;> rfl

theorem dailyReset_position (s : SimState) (d : ℤ) :
    (dailyReset s d).position = s.position := by
  unfold dailyReset; split <;> rfl

theorem dailyReset_equity (s : SimState) (d : ℤ) :
    (dailyReset s d).equity = s.equity := by
  unfold dailyReset; split <;> rfl

theorem stateOk_dailyReset (P : SimParams) (b : ℕ) (s : SimState) (d : ℤ)
    (hs : StateOk P b s) : StateOk P b (dailyReset s d) := by
  constructor
  · rw [dailyReset_trades]; exact hs.1
  · rw [dailyReset_position]; exact hs.2

theorem processExit_none (P : SimParams) (s : SimState) (i : ℕ)
    (hpos : s.position = none) : processExit P s i = .ok s := by
  unfold processExit; rw [hpos]

theorem processExit_some (P : SimParams) (s : SimState) (i : ℕ) (pos : Position)
    (hpos : s.position = some pos) :
    processExit P s i = processExitSome P pos s i := by
  unfold processExit; rw [hpos]

theorem stateOk_of_processExitSome (P : SimParams) (i : ℕ) (s s2 : SimState)
    (pos : Position) (hpos : s.position = some pos)
    (hi : i + 1 < P.data.length)
    (h : processExitSome P pos s i = .ok s2) (hs : StateOk P i s) :
    (∀ t ∈ s2.trades, TradeOk P (i + 1) t) ∧
    (∀ p, s2.position = some p → PosOk P (i + 1) p) := by
  unfold processExitSome at h
  rcases hcs : calcStopPrice pos.entryPrice P.stopConfig pos.atrValue with e | sp
  · rw [hcs] at h; cases h
  · rw [hcs] at h
    simp only [exceptBindOk] at h
    rcases hct : calcTargetPrice pos.entryPrice P.tpConfig pos.atrValue with e | tp
    · rw [hct] at h; cases h
    · rw [hct] at h
      simp only [exceptBindOk] at h
      obtain ⟨j, hjlt, hj1, hsig, hprice, hts⟩ := hs.2 pos hpos
      have closedCase : ∀ (exitPrice : ℚ) (reason : String) (hitS hitT : Bool),
          s2 = exitStateOf s pos exitPrice reason hitS hitT
                 (P.data.getD (i + 1) default).ts →
          (∀ t ∈ s2.trades, TradeOk P (i + 1) t) ∧
          (∀ p, s2.position = some p → PosOk P (i + 1) p) := by
        intro exitPrice reason hitS hitT h2
        subst h2
        constructor
        · intro t ht
          simp only [exitStateOf, List.mem_append, List.mem_singleton] at ht
          rcases ht with ht | ht
          · exact TradeOk_mono P i (i + 1) t (Nat.le_succ i) (hs.1 t ht)
          · subst ht
            exact ⟨j, hj1, hsig, hprice, hts,
              fun _ => ⟨i, hjlt, hi, Nat.lt_succ_self i, rfl⟩⟩
        · intro p hp; simp [exitStateOf] at hp
      by_cases hlow : (P.data.getD (i + 1) default).low ≤ sp
      · rw [if_pos hlow] at h
        simp only [Except.ok.injEq] at h
        exact closedCase sp "stop" true false h.symm
      · rw [if_neg hlow] at h
        by_cases hhigh : tp ≤ (P.data.getD (i + 1) default).high
        · rw [if_pos hhigh] at h
          simp only [Except.ok.injEq] at h
          exact closedCase tp "target" false true h.symm
        · rw [if_neg hhigh] at h
          by_cases hexit : P.exitSignals i = true
          · rw [if_pos hexit] at h
            simp only [Except.ok.injEq] at h
            exact closedCase (P.data.getD (i + 1) default).opn "signal" false false h.symm
          · rw [if_neg hexit] at h
            simp only [Except.ok.injEq] at h
            subst h
            exact ⟨fun t ht => TradeOk_mono P i (i + 1) t (Nat.le_succ i) (hs.1 t ht),
                   fun p hp => PosOk_mono P i (i + 1) p (Nat.le_succ i) (hs.2 p hp)⟩


theorem processEntry_trades (P : SimParams) (s : SimState) (i : ℕ) :
    (processEntry P s i).trades = s.trades := by
  simp only [processEntry]
  split_ifs <;> rfl

theorem processEntry_spec (P : SimParams) (s : SimState) (i : ℕ) :
    processEntry P s i = s ∨
    (s.position = none ∧ P.entrySignals i = true ∧
      ∃ sh av, processEntry P s i =
        { s with position := some { entryTime := (P.data.getD (i + 1) default).ts,
                                    entryPrice := (P.data.getD (i + 1) default).opn,
                                    shares := sh, atrValue := av },
                 dailyTrades := s.dailyTrades + 1 }) := by
  simp only [processEntry]
  split_ifs with h1 h2 h3 h4 h5 h6 h7 h8 h9 <;>
    first
      | exact Or.inl rfl
      | exact Or.inr ⟨h1.1, h1.2, _, _, rfl⟩

theorem processEntry_stateOk (P : SimParams) (i : ℕ) (s : SimState)
    (hi : i + 1 < P.data.length)
    (ht : ∀ t ∈ s.trades, TradeOk P (i + 1) t)
    (hp : ∀ pos, s.position = some pos → PosOk P (i + 1) pos) :
    StateOk P (i + 1) (processEntry P s i) := by
  rcases processEntry_spec P s i with heq | ⟨hnone, hsig, sh, av, heq⟩
  · rw [heq]; exact ⟨ht, hp⟩
  · rw [heq]
    refine ⟨ht, fun pos hpos => ?_⟩
    simp only [Option.some.injEq] at hpos
    subst hpos
    exact ⟨i, Nat.lt_succ_self i, hi, hsig, rfl, rfl⟩

theorem simStep_stateOk (P : SimParams) (i : ℕ) (s s2 : SimState)
    (hi : i + 1 < P.data.length)
    (h : simStep P s i = .ok s2) (hs : StateOk P i s) :
    StateOk P (i + 1) s2 := by
  simp only [simStep] at h
  have hreset := stateOk_dailyReset P i s (P.data.getD i default).date hs
  set s1 := dailyReset s (P.data.getD i default).date with hs1
  cases hpos : s1.position with
  | none =>
    rw [processExit_none P s1 i hpos] at h
    simp only [exceptBindOk, Except.ok.injEq] at h
    subst h
    refine processEntry_stateOk P i s1 hi ?_ ?_
    · exact fun t htr => TradeOk_mono P i (i + 1) t (Nat.le_succ i) (hreset.1 t htr)
    · intro pos hp; rw [hpos] at hp; cases hp
  | some pos =>
    rw [processExit_some P s1 i pos hpos] at h
    rcases hpe : processExitSome P pos s1 i with e | sMid
    · rw [hpe] at h; cases h
    · rw [hpe] at h
      simp only [exceptBindOk, Except.ok.injEq] at h
      subst h
      have hmid := stateOk_of_processExitSome P i s1 sMid pos hpos hi hpe hreset
      exact processEntry_stateOk P i sMid hi hmid.1 hmid.2

theorem simLoop_stateOk (P : SimParams) :
    ∀ (r i : ℕ) (s sEnd : SimState), i + r ≤ P.data.length - 1 →
      simLoop P s i r = .ok sEnd → StateOk P i s → StateOk P (i + r) sEnd := by
  intro r
  induction r with
  | zero =>
    intro i s sEnd _ h hs
    rw [simLoop_zero] at h
    simp only [Except.ok.injEq] at h
    subst h
    simpa using hs
  | succ r ih =>
    intro i s sEnd hle h hs
    rw [simLoop_succ] at h
    rcases hstep : simStep P s i with e | sm
    · rw [hstep] at h; cases h
    · rw [hstep] at h
      simp only [exceptBindOkB] at h
      have hi : i + 1 < P.data.length := by omega
      have hsm := simStep_stateOk P i s sm hi hstep hs
      have hfin := ih (i + 1) sm sEnd (by omega) h hsm
      have : i + 1 + r = i + (r + 1) := by omega
      rwa [this] at hfin

theorem stateOk_init (P : SimParams) : StateOk P 0 (initState P) := by
  constructor
  · intro t ht; simp [initState] at ht
  · intro pos hp; simp [initState] at hp

theorem forceCloseEod_tradesOk (P : SimParams) (b : ℕ) (s : SimState)
    (hs : StateOk P b s) :
    ∀ t ∈ (forceCloseEod P s).trades, TradeOk P b t := by
  unfold forceCloseEod
  cases hpos : s.position with
  | none => exact hs.1
  | some pos =>
    intro t ht
    simp only [List.mem_append, List.mem_singleton] at ht
    rcases ht with ht | ht
    · exact hs.1 t ht
    · obtain ⟨j, hjlt, hj1, hsig, hprice, hts⟩ := hs.2 pos hpos
      subst ht
      exact ⟨j, hj1, hsig, hprice, hts, fun hne => (hne rfl).elim⟩

theorem runSim_tradesOk (P : SimParams) (res : SimResult)
    (h : runSim P = .ok res) :
    ∀ t ∈ res.trades, TradeOk P (P.data.length - 1) t := by
  unfold runSim at h
  rcases hloop : simLoop P (initState P) 0 (P.data.length - 1) with e | sEnd
  · rw [hloop] at h; cases h
  · rw [hloop] at h
    simp only [exceptBindOk, Except.ok.injEq] at h
    have hsEnd : StateOk P (0 + (P.data.length - 1)) sEnd :=
      simLoop_stateOk P (P.data.length - 1) 0 (initState P) sEnd (by omega) hloop
        (stateOk_init P)
    rw [Nat.zero_add] at hsEnd
    intro t ht
    have : t ∈ (forceCloseEod P sEnd).trades := by rw [← h] at ht; exact ht
    exact forceCloseEod_tradesOk P (P.data.length - 1) sEnd hsEnd t this


theorem scnA_run : runSim scnAParams = .ok scnAResult := by
  norm_num [runSim, simLoop_succ, simLoop_zero, simStep, scnAParams, scnABars,
    scnAResult, initState, dailyReset, processExit, processExitSome, processEntry,
    riskBlocked, atrForEntry, calcPositionSize, pyInt, calcStopPrice,
    calcTargetPrice, forceCloseEod, calcEquityCurve, equityPointsAux, lastPointLE,
    Except.bind, optNoneNeSomeEq, optSomeNeNoneEq, optSomeInjEq, exceptBindOk,
    exceptBindOkB, PriceRule.isAtr, PriceRule.getAtrSeries, Option.orElse]

theorem fillBarBreach_run : runSim fillBarBreachParams = .ok fillBarBreachResult := by
  norm_num [runSim, simLoop_succ, simLoop_zero, simStep, fillBarBreachParams,
    fillBarBreachBars, fillBarBreachResult, initState, dailyReset, processExit,
    processExitSome, processEntry, riskBlocked, atrForEntry, calcPositionSize,
    pyInt, calcStopPrice, calcTargetPrice, forceCloseEod, calcEquityCurve,
    equityPointsAux, lastPointLE, Except.bind, optNoneNeSomeEq, optSomeNeNoneEq,
    optSomeInjEq, exceptBindOk, exceptBindOkB, PriceRule.isAtr,
    PriceRule.getAtrSeries, Option.orElse]

theorem afterFillBreach_run : runSim afterFillBreachParams = .ok afterFillBreachResult := by
  norm_num [runSim, simLoop_succ, simLoop_zero, simStep, afterFillBreachParams,
    afterFillBreachBars, afterFillBreachResult, afterFillTrade, initState,
    dailyReset, processExit, processExitSome, processEntry, riskBlocked,
    atrForEntry, calcPositionSize, pyInt, calcStopPrice, calcTargetPrice,
    forceCloseEod, calcEquityCurve, equityPointsAux, lastPointLE, Except.bind,
    optNoneNeSomeEq, optSomeNeNoneEq, optSomeInjEq, exceptBindOk, exceptBindOkB,
    PriceRule.isAtr, PriceRule.getAtrSeries, Option.orElse]

theorem oneTrade_run : runSim oneTradeParams = .ok oneTradeResult := by
  norm_num [runSim, simLoop_succ, simLoop_zero, simStep, oneTradeParams,
    oneTradeResult, initState, dailyReset, processExit, processExitSome,
    processEntry, riskBlocked, atrForEntry, calcPositionSize, pyInt,
    calcStopPrice, calcTargetPrice, forceCloseEod, calcEquityCurve,
    equityPointsAux, lastPointLE, Except.bind, optNoneNeSomeEq, optSomeNeNoneEq,
    optSomeInjEq, exceptBindOk, exceptBindOkB, PriceRule.isAtr,
    PriceRule.getAtrSeries, Option.orElse]


/-- C1.  No-lookahead fill timing: every trade the simulator produces
was entered from an entry signal observed at some bar j's close and
filled at bar j+1's open — its entry price is bar j+1's open and its
entry time bar j+1's timestamp, never bar j's own price or any earlier
bar's.  Concretely (spec Scenario A): closes [100, 101, 99], opens
[100, 100.5, 99.5], entry signal true only at bar 0 — the position is
entered at 100.5 (bar 1's open), not at 100. -/
theorem entry_fills_at_next_open (P : SimParams) (res : SimResult)
    (h : runSim P = .ok res) :
    (∀ t ∈ res.trades, ∃ j, j + 1 < P.data.length ∧ P.entrySignals j = true ∧
      t.entryPrice = (P.data.getD (j + 1) default).opn ∧
      t.entryTime = (P.data.getD (j + 1) default).ts) ∧
    runSim scnAParams = .ok scnAResult ∧
    scnAResult.trades.map (fun t => t.entryPrice) = [201/2] ∧
    (201 : ℚ)/2 = (scnAParams.data.getD 1 default).opn ∧
    ¬(201 : ℚ)/2 = 100 := by
  refine ⟨?_, scnA_run, ?_, ?_, ?_⟩
  · intro t ht
    obtain ⟨j, h1, h2, h3, h4, _⟩ := runSim_tradesOk P res h t ht
    exact ⟨j, h1, h2, h3, h4⟩
  · norm_num [scnAResult]
  · norm_num [scnAParams, scnABars]
  · norm_num

theorem entry_fills_at_next_open_witness :
    ∃ j, j + 1 < scnAParams.data.length ∧ scnAParams.entrySignals j = true ∧
      scnATrade.entryPrice = (scnAParams.data.getD (j + 1) default).opn ∧
      scnATrade.entryTime = (scnAParams.data.getD (j + 1) default).ts :=
  (entry_fills_at_next_open scnAParams scnAResult scnA_run).1 scnATrade
    (by rw [show scnAResult.trades = [scnATrade] from rfl]; exact List.mem_singleton.mpr rfl)

/-- C2 (amended).  While a position is open, stop and target levels
are checked at each loop iteration i against bar i+1's high/low, so
the first checked bar is the bar AFTER the fill bar (a position filled
at bar j+1 is first exit-checked against bar j+2): every non-eod trade
exits at a bar k+1 with k strictly greater than its entry-signal bar
j.  On any checked bar that breaches both the stop and the target, the
stop wins: the position closes with exit_reason "stop" at the stop
price (the conservative `elif` tie-break).  Concretely, with entry
100, fixed stop 98 and fixed target 105, a bar AFTER the fill bar with
low 97 and high 106 exits the trade at "stop"/98
(see the witness); the fill bar itself breaching both levels does not
(see the counterexample). -/
theorem stop_checked_from_bar_after_fill (P : SimParams) (res : SimResult)
    (h : runSim P = .ok res) :
    (∀ t ∈ res.trades, t.exitReason ≠ "eod" →
      ∃ j k, j < k ∧ k + 1 < P.data.length ∧ P.entrySignals j = true ∧
        t.entryPrice = (P.data.getD (j + 1) default).opn ∧
        t.entryTime = (P.data.getD (j + 1) default).ts ∧
        t.exitTime = (P.data.getD (k + 1) default).ts) ∧
    (∀ (s : SimState) (pos : Position) (i : ℕ) (sp tp : ℚ),
      s.position = some pos →
      calcStopPrice pos.entryPrice P.stopConfig pos.atrValue = .ok sp →
      calcTargetPrice pos.entryPrice P.tpConfig pos.atrValue = .ok tp →
      (P.data.getD (i + 1) default).low ≤ sp →
      tp ≤ (P.data.getD (i + 1) default).high →
      processExit P s i = .ok (exitStateOf s pos sp "stop" true false
        (P.data.getD (i + 1) default).ts)) := by
  constructor
  · intro t ht hne
    obtain ⟨j, h1, h2, h3, h4, h5⟩ := runSim_tradesOk P res h t ht
    obtain ⟨k, hk1, hk2, _, hk4⟩ := h5 hne
    exact ⟨j, k, hk1, hk2, h2, h3, h4, hk4⟩
  · intro s pos i sp tp hpos hsp htp hlow hhigh
    rw [processExit_some P s i pos hpos]
    unfold processExitSome
    rw [hsp]
    simp only [exceptBindOk]
    rw [htp]
    simp only [exceptBindOk]
    rw [if_pos hlow]
    rfl

/-- C2 counterexample to the claim as stated: entry at 100 with fixed
stop 98 and fixed target 105, where the FILL BAR has low 97 and high
106 but no later bar breaches either level — the simulator never
examines the fill bar's high/low (a position opened at iteration j is
first checked at iteration j+1 against bar j+2), so the trade is
force-closed "eod" at 100 instead of exiting "stop" at 98. -/
theorem stop_not_checked_on_fill_bar :
    runSim fillBarBreachParams = .ok fillBarBreachResult ∧
    fillBarBreachResult.trades.map (fun t => t.exitReason) = ["eod"] ∧
    fillBarBreachResult.trades.map (fun t => t.exitPrice) = [100] ∧
    ¬("eod" = "stop" ∧ (100 : ℚ) = 98) := by
  refine ⟨fillBarBreach_run, ?_, ?_, ?_⟩
  · norm_num [fillBarBreachResult]
  · norm_num [fillBarBreachResult]
  · intro hcon
    exact absurd hcon.2 (by norm_num)

/-- Witness for `stop_checked_from_bar_after_fill`: the amended
Scenario B.  Entry 100, fixed stop 98, fixed target 105; the bar after
the fill bar has low 97 and high 106, breaching both levels — the
trade exits with exit_reason "stop" at exit_price 98, at a bar
strictly after the fill bar. -/
theorem stop_checked_from_bar_after_fill_witness :
    runSim afterFillBreachParams = .ok afterFillBreachResult ∧
    afterFillBreachResult.trades.map (fun t => t.exitReason) = ["stop"] ∧
    afterFillBreachResult.trades.map (fun t => t.exitPrice) = [98] ∧
    (∃ j k, j < k ∧ k + 1 < afterFillBreachParams.data.length ∧
      afterFillBreachParams.entrySignals j = true ∧
      afterFillTrade.entryPrice = (afterFillBreachParams.data.getD (j + 1) default).opn ∧
      afterFillTrade.entryTime = (afterFillBreachParams.data.getD (j + 1) default).ts ∧
      afterFillTrade.exitTime = (afterFillBreachParams.data.getD (k + 1) default).ts) := by
  refine ⟨afterFillBreach_run, ?_, ?_, ?_⟩
  · norm_num [afterFillBreachResult, afterFillTrade]
  · norm_num [afterFillBreachResult, afterFillTrade]
  · exact (stop_checked_from_bar_after_fill afterFillBreachParams afterFillBreachResult
      afterFillBreach_run).1 afterFillTrade
      (by rw [show afterFillBreachResult.trades = [afterFillTrade] from rfl]
          exact List.mem_singleton.mpr rfl)
      (by intro hcon; exact absurd hcon (by decide))


theorem processEntry_noSignal (P : SimParams) (s : SimState) (i : ℕ)
    (h : P.entrySignals i = false) : processEntry P s i = s := by
  simp only [processEntry]
  rw [if_neg]
  intro hcon
  rw [h] at hcon
  exact absurd hcon.2 (by simp)

theorem forceCloseEod_noPosition (P : SimParams) (s : SimState)
    (hpos : s.position = none) : forceCloseEod P s = s := by
  unfold forceCloseEod
  rw [hpos]

theorem simLoop_noEntry (P : SimParams)
    (hsigf : ∀ m, m + 1 < P.data.length → P.entrySignals m = false) :
    ∀ (r i : ℕ) (s : SimState), i + r ≤ P.data.length - 1 →
      s.position = none →
      ∃ sEnd, simLoop P s i r = .ok sEnd ∧ sEnd.position = none ∧
        sEnd.trades = s.trades := by
  intro r
  induction r with
  | zero =>
    intro i s _ hpos
    exact ⟨s, simLoop_zero P s i, hpos, rfl⟩
  | succ r ih =>
    intro i s hle hpos
    have hi : i + 1 < P.data.length := by omega
    have hpos1 : (dailyReset s (P.data.getD i default).date).position = none := by
      rw [dailyReset_position]; exact hpos
    have hstep : simStep P s i = .ok (dailyReset s (P.data.getD i default).date) := by
      simp only [simStep]
      rw [processExit_none P _ i hpos1]
      simp only [exceptBindOk]
      rw [processEntry_noSignal P _ i (hsigf i hi)]
    obtain ⟨sEnd, hloop, hposE, htrE⟩ :=
      ih (i + 1) (dailyReset s (P.data.getD i default).date) (by omega) hpos1
    refine ⟨sEnd, ?_, hposE, ?_⟩
    · rw [simLoop_succ, hstep]
      simpa only [exceptBindOkB] using hloop
    · rw [htrE, dailyReset_trades]

/-- C10.  For every dataset and every stop/target/size configuration,
an entry signal that is true only on the final bar produces no trade:
a fill needs the following bar's open and the loop stops one bar
early, so the simulator returns an empty trade list and an equity
curve constant at the initial capital. -/
theorem signal_only_last_bar_no_trades (P : SimParams)
    (hsig : ∀ i, P.entrySignals i = true ↔ i + 1 = P.data.length) :
    runSim P = .ok { trades := [], equityCurve := P.data.map (fun _ => P.initialCapital) } := by
  have hsigf : ∀ m, m + 1 < P.data.length → P.entrySignals m = false := by
    intro m hm
    cases hsm : P.entrySignals m with
    | false => rfl
    | true => exact absurd ((hsig m).1 hsm) (by omega)
  obtain ⟨sEnd, hloop, hposE, htrE⟩ :=
    simLoop_noEntry P hsigf (P.data.length - 1) 0 (initState P) (by omega)
      (by simp [initState])
  unfold runSim
  rw [hloop]
  simp only [exceptBindOk]
  rw [forceCloseEod_noPosition P sEnd hposE]
  have htr : sEnd.trades = [] := by rw [htrE]; simp [initState]
  rw [htr]
  simp [calcEquityCurve]

theorem signal_only_last_bar_no_trades_witness :
    runSim lastBarSignalParams =
      .ok { trades := [], equityCurve := [100000, 100000, 100000] } := by
  have h := signal_only_last_bar_no_trades lastBarSignalParams (by
    intro i
    simp only [lastBarSignalParams, scnABars, beq_iff_eq, List.length_cons,
      List.length_nil]
    omega)
  rw [h]
  norm_num [lastBarSignalParams, scnABars]

/-- C8.  When the OHLCV input carries its timestamp as an explicit
column, any backtest that produces at least one trade fails inside
`_calculate_metrics`: the column branch assigns only `timestamps`,
leaving `start_ts` unassigned, and the subsequent
`if start_ts is not None` read raises UnboundLocalError — the
evaluation does not return normally.  (With the fallback RangeIndex
format — what an index-carried timestamp becomes after `run`'s
`reset_index(drop=True)` — the same backtest computes its metrics and
returns.) -/
theorem metrics_timestamp_column_raises (P : SimParams) (res : SimResult)
    (h : runSim P = .ok res) (htr : res.trades.length ≠ 0) :
    runWithMetrics .column P =
      .error "UnboundLocalError: local variable start_ts referenced before assignment" ∧
    runWithMetrics .column oneTradeParams =
      .error "UnboundLocalError: local variable start_ts referenced before assignment" ∧
    runWithMetrics .rangeIndex oneTradeParams =
      .ok (oneTradeResult,
        { totalReturn := 10, totalReturnPct := 1/10000, tradeCount := 1 }) := by
  refine ⟨?_, ?_, ?_⟩
  · unfold runWithMetrics
    rw [h]
    simp only [exceptBindOk]
    unfold calculateMetricsOutcome
    rw [if_neg htr]
    rfl
  · unfold runWithMetrics
    rw [oneTrade_run]
    simp only [exceptBindOk]
    have h1 : oneTradeResult.trades.length = 1 := by norm_num [oneTradeResult]
    unfold calculateMetricsOutcome
    rw [h1]
    rfl
  · unfold runWithMetrics
    rw [oneTrade_run]
    simp only [exceptBindOk]
    have h1 : oneTradeResult.trades.length = 1 := by norm_num [oneTradeResult]
    unfold calculateMetricsOutcome
    rw [h1]
    norm_num [oneTradeResult, oneTradeParams]
    rfl

theorem metrics_timestamp_column_raises_witness :
    runWithMetrics .column oneTradeParams =
      .error "UnboundLocalError: local variable start_ts referenced before assignment" :=
  (metrics_timestamp_column_raises oneTradeParams oneTradeResult oneTrade_run
    (by norm_num [oneTradeResult])).1

/-- The positive episode fitnesses sum to a positive total when any
exist (which is why the source's `total_positive <= 0` branch is dead
over exact arithmetic). -/
theorem filter_pos_sum_pos (l : List ℚ) (hne : l.filter (fun f => 0 < f) ≠ []) :
    0 < (l.filter (fun f => 0 < f)).sum := by
  apply List.sum_pos
  · intro x hx
    have := List.of_mem_filter hx
    exact_mod_cast of_decide_eq_true this
  · exact hne

/-- C6.  The lucky-spike penalty equals 0.2 exactly when at least two
episode fitnesses are positive and the best positive fitness is at
least 60% of the summed positive fitness, and is 0 otherwise; the
aggregate fitness equals the median episode fitness minus the sum of
the four penalties (worst-case, dispersion, single-regime,
lucky-spike).  Concretely (spec Scenario D), episode fitnesses
[0.9, 0.05, 0.05, −0.1] yield lucky_spike_penalty = 0.2
(0.9/1.0 = 90% ≥ 60%). -/
theorem lucky_spike_characterization (fitnesses : List ℚ) (srp : ℚ)
    (hne : fitnesses ≠ []) :
    (computeLuckySpikePenalty fitnesses = 1/5 ↔
      2 ≤ (fitnesses.filter (fun f => 0 < f)).length ∧
      (3/5) * (fitnesses.filter (fun f => 0 < f)).sum ≤
        pyMax (fitnesses.filter (fun f => 0 < f))) ∧
    (computeLuckySpikePenalty fitnesses = 1/5 ∨ computeLuckySpikePenalty fitnesses = 0) ∧
    (aggregateEpisodeFitnesses fitnesses srp).aggregatedFitness =
      (aggregateEpisodeFitnesses fitnesses srp).medianFitness -
        ((aggregateEpisodeFitnesses fitnesses srp).worstCasePenalty +
         (aggregateEpisodeFitnesses fitnesses srp).dispersionPenalty +
         (aggregateEpisodeFitnesses fitnesses srp).singleRegimePenalty +
         (aggregateEpisodeFitnesses fitnesses srp).luckySpikePenalty) ∧
    (aggregateEpisodeFitnesses fitnesses srp).medianFitness = pyMedian fitnesses ∧
    (aggregateEpisodeFitnesses fitnesses srp).luckySpikePenalty =
      computeLuckySpikePenalty fitnesses ∧
    computeLuckySpikePenalty [9/10, 1/20, 1/20, -1/10] = 1/5 := by
  refine ⟨?_, ?_, rfl, rfl, rfl, ?_⟩
  · unfold computeLuckySpikePenalty
    by_cases hlen : (fitnesses.filter (fun f => 0 < f)).length < 2
    · rw [if_pos hlen]
      constructor
      · intro h; exact absurd h (by norm_num)
      · intro h; omega
    · rw [if_neg hlen]
      have hfne : fitnesses.filter (fun f => 0 < f) ≠ [] := by
        intro hcon
        rw [hcon] at hlen
        simp at hlen
      have hsum := filter_pos_sum_pos fitnesses hfne
      rw [if_neg (not_le.mpr hsum)]
      constructor
      · intro h
        by_cases hshare : (3:ℚ)/5 ≤ pyMax (fitnesses.filter (fun f => 0 < f)) /
            (fitnesses.filter (fun f => 0 < f)).sum
        · refine ⟨by omega, ?_⟩
          calc (3:ℚ)/5 * (fitnesses.filter (fun f => 0 < f)).sum
              ≤ pyMax (fitnesses.filter (fun f => 0 < f)) /
                  (fitnesses.filter (fun f => 0 < f)).sum *
                  (fitnesses.filter (fun f => 0 < f)).sum := by
                exact mul_le_mul_of_nonneg_right hshare (le_of_lt hsum)
            _ = pyMax (fitnesses.filter (fun f => 0 < f)) := by
                field_simp
        · rw [if_neg hshare] at h
          exact absurd h (by norm_num)
      · rintro ⟨-, hmax⟩
        rw [if_pos]
        rw [le_div_iff hsum]
        linarith
  · simp only [computeLuckySpikePenalty]
    split_ifs <;> simp
  · norm_num [computeLuckySpikePenalty, pyMax]

/-- Witness for `lucky_spike_characterization` at Scenario D's episode
fitnesses with single-regime penalty 0.3. -/
theorem lucky_spike_characterization_witness :
    computeLuckySpikePenalty [9/10, 1/20, 1/20, -1/10] = 1/5 ∧
    (aggregateEpisodeFitnesses [9/10, 1/20, 1/20, -1/10] (3/10)).luckySpikePenalty =
      computeLuckySpikePenalty [9/10, 1/20, 1/20, -1/10] ∧
    (aggregateEpisodeFitnesses [9/10, 1/20, 1/20, -1/10] (3/10)).aggregatedFitness =
      (aggregateEpisodeFitnesses [9/10, 1/20, 1/20, -1/10] (3/10)).medianFitness -
        ((aggregateEpisodeFitnesses [9/10, 1/20, 1/20, -1/10] (3/10)).worstCasePenalty +
         (aggregateEpisodeFitnesses [9/10, 1/20, 1/20, -1/10] (3/10)).dispersionPenalty +
         (aggregateEpisodeFitnesses [9/10, 1/20, 1/20, -1/10] (3/10)).singleRegimePenalty +
         (aggregateEpisodeFitnesses [9/10, 1/20, 1/20, -1/10] (3/10)).luckySpikePenalty) := by
  have h := lucky_spike_characterization [9/10, 1/20, 1/20, -1/10] (3/10) (by simp)
  exact ⟨h.2.2.2.2.2, h.2.2.2.2.1, h.2.2.1⟩


/-- The Kahn loop on an empty queue returns the emitted ids. -/
theorem kahnLoop_nil (adj : String → List String) (deg : List (String × ℤ))
    (sorted : List String) : kahnLoop adj deg [] sorted = sorted := by
  unfold kahnLoop
  rfl

/-- One unfolding of the Kahn loop: pop, relax, recurse. -/
theorem kahnLoop_cons (adj : String → List String) (deg : List (String × ℤ))
    (q : String) (rest sorted : List String) :
    kahnLoop adj deg (q :: rest) sorted =
      kahnLoop adj ((adj q).foldl relaxOne (deg, rest)).1
        ((adj q).foldl relaxOne (deg, rest)).2 (sorted ++ [q]) := by
  conv_lhs => unfold kahnLoop

/-- `alSet` leaves the key list unchanged (dict update in place). -/
theorem alSet_keys (k : String) (v : ℤ) : ∀ (al : List (String × ℤ)),
    (alSet al k v).map (fun p => p.1) = al.map (fun p => p.1)
  | [] => rfl
  | (k2, v2) :: tl => by
    by_cases hk : k2 = k
    · subst hk; rw [alSet_cons_self]; simp
    · rw [alSet_cons_ne k2 k v2 v tl hk]
      simp [alSet_keys k v tl]

/-- Lookup after update: the updated key reads the new value, other
keys are untouched (the key being present). -/
theorem alGet_alSet (k : String) (v : ℤ) (c : String) :
    ∀ (al : List (String × ℤ)), k ∈ al.map (fun p => p.1) →
      alGet (alSet al k v) c = if c = k then v else alGet al c
  | [], hk => by simp at hk
  | (k2, v2) :: tl, hk => by
    by_cases h2 : k2 = k
    · by_cases hck : c = k
      · rw [h2, alSet_cons_self, hck, alGet_cons_self, if_pos rfl]
      · rw [h2, alSet_cons_self,
          alGet_cons_ne k c v tl (fun he => hck he.symm),
          if_neg hck,
          alGet_cons_ne k c v2 tl (fun he => hck he.symm)]
    · rw [alSet_cons_ne k2 k v2 v tl h2]
      have hk2 : k ∈ tl.map (fun p => p.1) := by
        simp only [List.map_cons, List.mem_cons] at hk
        rcases hk with hk | hk
        · exact absurd hk.symm h2
        · exact hk
      by_cases hck : c = k2
      · rw [hck, alGet_cons_self, alGet_cons_self,
          if_neg (fun he : k2 = k => h2 he)]
      · rw [alGet_cons_ne k2 c v2 (alSet tl k v) (fun he => hck he.symm),
          alGet_alSet k v c tl hk2,
          alGet_cons_ne k2 c v2 tl (fun he => hck he.symm)]

/-- Lookup of an absent key returns the 0 default. -/
theorem alGet_notMem (c : String) : ∀ (al : List (String × ℤ)),
    c ∉ al.map (fun p => p.1) → alGet al c = 0
  | [], _ => rfl
  | (k2, v2) :: tl, hc => by
    simp only [List.map_cons, List.mem_cons, not_or] at hc
    rw [alGet_cons_ne _ _ _ _ (fun h => hc.1 h.symm)]
    exact alGet_notMem c tl hc.2

/-- Relaxing edges never changes the degree-table keys. -/
theorem foldl_relaxOne_keys : ∀ (l : List String) (deg : List (String × ℤ)) (q : List String),
    ((l.foldl relaxOne (deg, q)).1).map (fun p => p.1) = deg.map (fun p => p.1)
  | [], _, _ => rfl
  | x :: t, deg, q => by
    rw [List.foldl_cons]
    have h1 : (relaxOne (deg, q) x).1 = alSet deg x (alGet deg x - 1) := by
      simp only [relaxOne]
      split <;> rfl
    have h2 : ∃ q2, relaxOne (deg, q) x = (alSet deg x (alGet deg x - 1), q2) := by
      simp only [relaxOne]
      split
      · exact ⟨_, rfl⟩
      · exact ⟨_, rfl⟩
    obtain ⟨q2, hq2⟩ := h2
    rw [hq2, foldl_relaxOne_keys t _ q2, alSet_keys]

/-- Relaxing the popped node's edge list decrements each neighbor's
degree once per occurrence. -/
theorem alGet_foldl_relax : ∀ (l : List String) (deg : List (String × ℤ)) (q : List String),
    (∀ x ∈ l, x ∈ deg.map (fun p => p.1)) → ∀ c,
      alGet ((l.foldl relaxOne (deg, q)).1) c = alGet deg c - l.count c
  | [], deg, q, _, c => by simp
  | x :: t, deg, q, hl, c => by
    rw [List.foldl_cons]
    have hx : x ∈ deg.map (fun p => p.1) := hl x (by simp)
    have h2 : ∃ q2, relaxOne (deg, q) x = (alSet deg x (alGet deg x - 1), q2) := by
      simp only [relaxOne]
      split
      · exact ⟨_, rfl⟩
      · exact ⟨_, rfl⟩
    obtain ⟨q2, hq2⟩ := h2
    rw [hq2]
    have hkeys2 : ∀ y ∈ t, y ∈ (alSet deg x (alGet deg x - 1)).map (fun p => p.1) := by
      intro y hy
      rw [alSet_keys]
      exact hl y (by simp [hy])
    rw [alGet_foldl_relax t _ q2 hkeys2 c,
      alGet_alSet x (alGet deg x - 1) c deg hx]
    by_cases hcx : c = x
    · subst hcx
      rw [if_pos rfl]
      rw [List.count_cons_self]
      omega
    · rw [if_neg hcx, List.count_cons_of_ne hcx]

/-- Every adjacency entry is a node id. -/
theorem adjOf_subset (nodes : List Node) (q : String) :
    ∀ x ∈ adjOf nodes q, x ∈ nodes.map (fun n => n.id) := by
  intro x hx
  simp only [adjOf, List.mem_bind, List.mem_filterMap] at hx
  obtain ⟨n, hn, r, hr, hcond⟩ := hx
  have hx2 : x = n.id := by
    by_cases hrq : r = q
    · rw [if_pos hrq] at hcond
      exact (Option.some.inj hcond).symm
    · rw [if_neg hrq] at hcond
      simp at hcond
  exact List.mem_map.mpr ⟨n, hn, hx2.symm⟩

/-- The filterMap selecting producers equal to `q` is a replicate. -/
theorem filterMap_if_eq_replicate (q c : String) : ∀ (rs : List String),
    rs.filterMap (fun r => if r = q then some c else none) =
      List.replicate (rs.count q) c
  | [] => rfl
  | r :: t => by
    rw [List.filterMap_cons]
    by_cases hrq : r = q
    · subst hrq
      rw [if_pos rfl, List.count_cons_self, filterMap_if_eq_replicate r c t]
      rfl
    · rw [if_neg hrq, List.count_cons_of_ne (fun h => hrq h.symm),
        filterMap_if_eq_replicate q c t]

/-- Occurrence count in a replicate. -/
theorem count_replicate_eq (c x : String) : ∀ n : ℕ,
    (List.replicate n c).count x = if x = c then n else 0
  | 0 => by simp
  | n + 1 => by
    rw [List.replicate_succ, List.count_cons, count_replicate_eq c x n]
    by_cases hxc : x = c
    · simp [hxc]
    · have hcx : ¬ c = x := fun h => hxc h.symm
      simp [hxc, hcx]

/-- The number of adjacency entries pointing at a node equals the
number of that node's inputs referencing the popped producer. -/
theorem count_adjOf : ∀ (nodes : List Node) (q : String),
    (nodes.map (fun n => n.id)).Nodup →
    ∀ n ∈ nodes, (adjOf nodes q).count n.id = (producersOf n).count q
  | [], _, _, n, hn => absurd hn (List.not_mem_nil n)
  | m :: t, q, hnd, n, hn => by
    have hadj : adjOf (m :: t) q =
        List.replicate ((producersOf m).count q) m.id ++ adjOf t q := by
      simp only [adjOf, List.cons_bind, filterMap_if_eq_replicate]
    rw [hadj, List.count_append, count_replicate_eq]
    simp only [List.map_cons, List.nodup_cons] at hnd
    rcases List.mem_cons.mp hn with h1 | h2
    · subst h1
      rw [if_pos rfl]
      have h0 : (adjOf t q).count n.id = 0 := by
        rw [List.count_eq_zero]
        intro hmem
        exact hnd.1 (adjOf_subset t q n.id hmem)
      omega
    · have hne : ¬ n.id = m.id := by
        intro he
        exact hnd.1 (he ▸ List.mem_map.mpr ⟨n, h2, rfl⟩)
      rw [if_neg hne, count_adjOf t q hnd.2 n h2]
      omega

/-- Filtering by non-membership in the empty processed list keeps
everything. -/
theorem flen_nil (l : List String) :
    (l.filter (fun r => decide (r ∉ ([] : List String)))).length = l.length := by
  simp

/-- Extending the processed list by a fresh id removes exactly the
occurrences of that id from the unprocessed-producer count. -/
theorem flen_append_singleton (l : List String) (s : List String) (q : String)
    (hq : q ∉ s) :
    (l.filter (fun r => decide (r ∉ s))).length =
      (l.filter (fun r => decide (r ∉ s ++ [q]))).length + l.count q := by
  induction l with
  | nil => rfl
  | cons a t ih =>
    rw [List.filter_cons, List.filter_cons, List.count_cons]
    by_cases has : a ∈ s
    · have h1 : ¬ (decide (a ∉ s) = true) := by simp [has]
      have h2 : ¬ (decide (a ∉ s ++ [q]) = true) := by simp [has]
      have h3 : ¬ ((a == q) = true) := by
        simp only [beq_iff_eq]
        intro he
        exact hq (he ▸ has)
      rw [if_neg h1, if_neg h2, if_neg h3]
      omega
    · by_cases haq : a = q
      · subst haq
        have h1 : (decide (a ∉ s) = true) := by simp [has]
        have h2 : ¬ (decide (a ∉ s ++ [a]) = true) := by simp
        have h3 : ((a == a) = true) := by simp
        rw [if_pos h1, if_neg h2, if_pos h3]
        simp only [List.length_cons]
        omega
      · have h1 : (decide (a ∉ s) = true) := by simp [has]
        have h2 : (decide (a ∉ s ++ [q]) = true) := by
          simp [has, haq]
        have h3 : ¬ ((a == q) = true) := by simp [haq]
        rw [if_pos h1, if_pos h2, if_neg h3]
        simp only [List.length_cons]
        omega

/-- The unprocessed-producer count is zero exactly when every producer
is processed. -/
theorem flen_zero_iff (l s : List String) :
    ((l.filter (fun r => decide (r ∉ s))).length = 0) ↔ ∀ r ∈ l, r ∈ s := by
  rw [List.length_eq_zero, List.filter_eq_nil]
  simp

/-- Characterization of the queue after relaxing a popped node's
outgoing edges: the old queue plus a duplicate-free batch of pushed
ids, an id being pushed exactly when its in-degree was positive and
the relaxations drive it to (or past) zero. -/
theorem foldl_relax_queue : ∀ (l : List String) (deg : List (String × ℤ)) (q0 : List String),
    (∀ x ∈ l, x ∈ deg.map (fun p => p.1)) →
    ∃ pushed : List String,
      (l.foldl relaxOne (deg, q0)).2 = q0 ++ pushed ∧
      pushed.Nodup ∧
      (∀ x, x ∈ pushed ↔ (1 ≤ alGet deg x ∧ alGet deg x ≤ (l.count x : ℤ)))
  | [], deg, q0, _ => ⟨[], by simp, List.nodup_nil, by
      intro x
      simp only [List.foldl_nil, List.not_mem_nil, false_iff, List.count_nil]
      push_cast
      omega⟩
  | a :: t, deg, q0, hl => by
    have ha : a ∈ deg.map (fun p => p.1) := hl a (List.mem_cons_self a t)
    have hkeys : ∀ x ∈ t, x ∈ (alSet deg a (alGet deg a - 1)).map (fun p => p.1) := by
      intro x hx
      rw [alSet_keys]
      exact hl x (List.mem_cons_of_mem a hx)
    have hget : ∀ c, alGet (alSet deg a (alGet deg a - 1)) c =
        if c = a then alGet deg a - 1 else alGet deg c :=
      fun c => alGet_alSet a _ c deg ha
    rw [List.foldl_cons]
    by_cases hz : alGet deg a - 1 = 0
    · have hrel : relaxOne (deg, q0) a = (alSet deg a (alGet deg a - 1), q0 ++ [a]) := by
        simp only [relaxOne]
        rw [if_pos hz]
      rw [hrel]
      obtain ⟨pt, hq, hnd, hiff⟩ := foldl_relax_queue t _ (q0 ++ [a]) hkeys
      refine ⟨a :: pt, ?_, ?_, ?_⟩
      · rw [hq, List.append_assoc]
        rfl
      · refine List.nodup_cons.mpr ⟨?_, hnd⟩
        intro hmem
        have h2 := (hiff a).mp hmem
        rw [hget a, if_pos rfl] at h2
        omega
      · intro x
        by_cases hxa : x = a
        · subst hxa
          rw [List.count_cons_self]
          constructor
          · intro _
            push_cast
            omega
          · intro _
            exact List.mem_cons_self _ _
        · rw [List.mem_cons, List.count_cons_of_ne hxa]
          have h2 := hiff x
          rw [hget x, if_neg hxa] at h2
          constructor
          · rintro (rfl | hx2)
            · exact absurd rfl hxa
            · exact h2.mp hx2
          · intro hx2
            exact Or.inr (h2.mpr hx2)
    · have hrel : relaxOne (deg, q0) a = (alSet deg a (alGet deg a - 1), q0) := by
        simp only [relaxOne]
        rw [if_neg hz]
      rw [hrel]
      obtain ⟨pt, hq, hnd, hiff⟩ := foldl_relax_queue t _ q0 hkeys
      refine ⟨pt, hq, hnd, ?_⟩
      intro x
      by_cases hxa : x = a
      · subst hxa
        have h2 := hiff x
        rw [hget x, if_pos rfl] at h2
        rw [h2, List.count_cons_self]
        push_cast
        omega
      · have h2 := hiff x
        rw [hget x, if_neg hxa] at h2
        rw [h2, List.count_cons_of_ne hxa]

/-- The loop invariant of Kahn's algorithm over the embedded state:
the degree table keys are the node ids; the emitted prefix and the
queue are duplicate-free node ids; each node's tracked in-degree
counts its inputs whose producer is not yet emitted; a node's degree
is zero exactly when it has been emitted or enqueued; and every
emitted node's producers were emitted before it. -/
structure KahnInv (g : StrategyGraph) (deg : List (String × ℤ))
    (queue sorted : List String) : Prop where
  keys : deg.map (fun p => p.1) = NodeIds g
  nodup : (sorted ++ queue).Nodup
  subset : ∀ x ∈ sorted ++ queue, x ∈ NodeIds g
  degEq : ∀ n ∈ g.nodes, alGet deg n.id =
    (((producersOf n).filter (fun r => decide (r ∉ sorted))).length : ℤ)
  zeroChar : ∀ n ∈ g.nodes, (alGet deg n.id = 0 ↔ n.id ∈ sorted ++ queue)
  orderOk : ∀ i (h : i < sorted.length), ∀ nd ∈ g.nodes,
    nd.id = sorted.get ⟨i, h⟩ → ∀ r ∈ producersOf nd, r ∈ sorted.take i

/-- The keys of the initial degree table are the node ids. -/
theorem initDegrees_keys (nodes : List Node) :
    (initDegrees nodes).map (fun p => p.1) = nodes.map (fun n => n.id) := by
  simp [initDegrees, List.map_map]

/-- The initial degree of a node is its input count (unique ids). -/
theorem alGet_initDegrees : ∀ (nodes : List Node),
    (nodes.map (fun n => n.id)).Nodup →
    ∀ n ∈ nodes, alGet (initDegrees nodes) n.id = ((producersOf n).length : ℤ)
  | [], _, n, hn => absurd hn (List.not_mem_nil n)
  | m :: t, hnd, n, hn => by
    simp only [List.map_cons, List.nodup_cons] at hnd
    have hinit : initDegrees (m :: t) =
        (m.id, ((producersOf m).length : ℤ)) :: initDegrees t := rfl
    rw [hinit]
    rcases List.mem_cons.mp hn with h1 | h2
    · subst h1
      rw [alGet_cons_self]
    · have hne : ¬ m.id = n.id := by
        intro he
        exact hnd.1 (he ▸ List.mem_map.mpr ⟨n, h2, rfl⟩)
      rw [alGet_cons_ne _ _ _ _ hne, alGet_initDegrees t hnd.2 n h2]

/-- A node id is in the initial queue exactly when its initial
in-degree is zero. -/
theorem mem_initQueue_iff (g : StrategyGraph) (hnd : (NodeIds g).Nodup)
    (n : Node) (hn : n ∈ g.nodes) :
    n.id ∈ ((initDegrees g.nodes).filter (fun p => p.2 = 0)).map (fun p => p.1) ↔
      alGet (initDegrees g.nodes) n.id = 0 := by
  constructor
  · intro h
    obtain ⟨p, hp, hpid⟩ := List.mem_map.mp h
    have hp2 := List.mem_filter.mp hp
    obtain ⟨m, hm, hmp⟩ := List.mem_map.mp hp2.1
    have hz : p.2 = 0 := by simpa using hp2.2
    have hid : p.1 = m.id := by rw [← hmp]
    have hval : p.2 = ((producersOf m).length : ℤ) := by rw [← hmp]
    rw [← hpid, hid, alGet_initDegrees g.nodes hnd m hm, ← hval, hz]
  · intro h
    have hmem : (n.id, ((producersOf n).length : ℤ)) ∈ initDegrees g.nodes :=
      List.mem_map.mpr ⟨n, hn, rfl⟩
    have hlen : ((producersOf n).length : ℤ) = 0 := by
      rw [← alGet_initDegrees g.nodes hnd n hn]
      exact h
    refine List.mem_map.mpr ⟨(n.id, ((producersOf n).length : ℤ)), ?_, rfl⟩
    refine List.mem_filter.mpr ⟨hmem, ?_⟩
    simpa using hlen

/-- The invariant holds at entry to the Kahn loop. -/
theorem kahnInv_init (g : StrategyGraph) (hwf : Wellformed g) :
    KahnInv g (initDegrees g.nodes)
      (((initDegrees g.nodes).filter (fun p => p.2 = 0)).map (fun p => p.1)) [] := by
  have hnd : (NodeIds g).Nodup := hwf.1
  have hsub : (((initDegrees g.nodes).filter (fun p => p.2 = 0)).map (fun p => p.1)).Sublist
      (NodeIds g) := by
    have h1 : ((initDegrees g.nodes).filter (fun p => p.2 = 0)).Sublist
        (initDegrees g.nodes) := List.filter_sublist _
    have h2 := h1.map (fun p => p.1)
    rw [initDegrees_keys] at h2
    exact h2
  refine ⟨?_, ?_, ?_, ?_, ?_, ?_⟩
  · exact initDegrees_keys g.nodes
  · rw [List.nil_append]
    exact hnd.sublist hsub
  · intro x hx
    rw [List.nil_append] at hx
    exact hsub.subset hx
  · intro n hn
    rw [alGet_initDegrees g.nodes hnd n hn]
    norm_cast
    rw [flen_nil]
  · intro n hn
    rw [List.nil_append]
    exact (mem_initQueue_iff g hnd n hn).symm
  · intro i h
    simp at h

/-- One iteration of the Kahn loop preserves the invariant. -/
theorem kahnInv_step (g : StrategyGraph) (hwf : Wellformed g)
    (deg : List (String × ℤ)) (q : String) (rest sorted : List String)
    (inv : KahnInv g deg (q :: rest) sorted) :
    KahnInv g ((adjOf g.nodes q).foldl relaxOne (deg, rest)).1
      ((adjOf g.nodes q).foldl relaxOne (deg, rest)).2 (sorted ++ [q]) := by
  obtain ⟨keys, nodup, subset, degEq, zeroChar, orderOk⟩ := inv
  have hnd_ids : (NodeIds g).Nodup := hwf.1
  have hlsub : ∀ x ∈ adjOf g.nodes q, x ∈ NodeIds g := adjOf_subset g.nodes q
  have hlkeys : ∀ x ∈ adjOf g.nodes q, x ∈ deg.map (fun p => p.1) := by
    intro x hx
    rw [keys]
    exact hlsub x hx
  obtain ⟨pushed, hq2, hpnd, hpiff⟩ := foldl_relax_queue (adjOf g.nodes q) deg rest hlkeys
  have hget : ∀ c, alGet ((adjOf g.nodes q).foldl relaxOne (deg, rest)).1 c =
      alGet deg c - ((adjOf g.nodes q).count c : ℤ) :=
    alGet_foldl_relax (adjOf g.nodes q) deg rest hlkeys
  have hq_mem : q ∈ sorted ++ (q :: rest) := by simp
  have hq_id : q ∈ NodeIds g := subset q hq_mem
  obtain ⟨nq, hnq, hnqid⟩ := List.mem_map.mp hq_id
  have hq_deg0 : alGet deg q = 0 := by
    rw [← hnqid]
    exact (zeroChar nq hnq).mpr (by rw [hnqid]; exact hq_mem)
  have hq_not_sorted : q ∉ sorted := by
    intro hq3
    exact (List.nodup_append.mp nodup).2.2 hq3 (List.mem_cons_self q rest)
  have hcount : ∀ n ∈ g.nodes,
      ((adjOf g.nodes q).count n.id) = (producersOf n).count q :=
    count_adjOf g.nodes q hnd_ids
  have degEq2 : ∀ n ∈ g.nodes,
      alGet ((adjOf g.nodes q).foldl relaxOne (deg, rest)).1 n.id =
      (((producersOf n).filter (fun r => decide (r ∉ sorted ++ [q]))).length : ℤ) := by
    intro n hn
    rw [hget n.id, degEq n hn, hcount n hn,
      flen_append_singleton (producersOf n) sorted q hq_not_sorted]
    push_cast
    ring
  have hpush_l : ∀ x ∈ pushed, x ∈ adjOf g.nodes q := by
    intro x hx
    have h2 := (hpiff x).mp hx
    have h3 : 0 < (adjOf g.nodes q).count x := by omega
    exact List.count_pos_iff.mp h3
  have hpush_id : ∀ x ∈ pushed, x ∈ NodeIds g := fun x hx => hlsub x (hpush_l x hx)
  have hpush_not_old : ∀ x ∈ pushed, x ∉ sorted ++ (q :: rest) := by
    intro x hx hmem
    obtain ⟨nx, hnx, hnxid⟩ := List.mem_map.mp (hpush_id x hx)
    have h0 : alGet deg x = 0 := by
      rw [← hnxid]
      exact (zeroChar nx hnx).mpr (by rw [hnxid]; exact hmem)
    have h2 := (hpiff x).mp hx
    omega
  rw [hq2]
  have happ : sorted ++ q :: rest = (sorted ++ [q]) ++ rest := by simp
  have nodup1 : ((sorted ++ [q]) ++ rest).Nodup := happ ▸ nodup
  refine ⟨?_, ?_, ?_, ?_, ?_, ?_⟩
  · rw [foldl_relaxOne_keys]
    exact keys
  · rw [List.nodup_append] at nodup1 ⊢
    refine ⟨nodup1.1, ?_, ?_⟩
    · rw [List.nodup_append]
      refine ⟨nodup1.2.1, hpnd, ?_⟩
      intro x hxr hxp
      exact hpush_not_old x hxp (by simp [hxr])
    · intro x hxs hxq
      rcases List.mem_append.mp hxq with hxr | hxp
      · exact nodup1.2.2 hxs hxr
      · refine hpush_not_old x hxp ?_
        rw [happ]
        exact List.mem_append_left rest hxs
  · intro x hx
    rcases List.mem_append.mp hx with hx1 | hx2
    · refine subset x ?_
      rw [happ]
      exact List.mem_append_left rest hx1
    · rcases List.mem_append.mp hx2 with hxr | hxp
      · exact subset x (by simp [hxr])
      · exact hpush_id x hxp
  · exact degEq2
  · intro n hn
    have hdegnew := degEq2 n hn
    have hdegold := degEq n hn
    have hdeg' := hget n.id
    have hcnt := hcount n hn
    have hzc := zeroChar n hn
    have hpiffn := hpiff n.id
    have hflen := flen_append_singleton (producersOf n) sorted q hq_not_sorted
    constructor
    · intro h0
      by_cases hold : n.id ∈ sorted ++ (q :: rest)
      · simp only [List.mem_append, List.mem_cons, List.mem_singleton] at hold ⊢
        tauto
      · have hne0 : ¬ alGet deg n.id = 0 := fun hc => hold (hzc.mp hc)
        have hp : n.id ∈ pushed := by
          refine hpiffn.mpr ⟨by omega, by omega⟩
        simp only [List.mem_append]
        tauto
    · intro hmem
      simp only [List.mem_append, List.mem_singleton] at hmem
      rcases hmem with (hs | hq3) | hr | hp
      · have h0 : alGet deg n.id = 0 := hzc.mpr (by simp [hs])
        omega
      · have h0 : alGet deg n.id = 0 := by rw [hq3]; exact hq_deg0
        omega
      · have h0 : alGet deg n.id = 0 := hzc.mpr (by simp [hr])
        omega
      · have h2 := hpiffn.mp hp
        omega
  · intro i h nd hnd2 hid r hr
    by_cases hi : i < sorted.length
    · have hget_eq : (sorted ++ [q]).get ⟨i, h⟩ = sorted.get ⟨i, hi⟩ :=
        List.get_append i hi
      have htake : (sorted ++ [q]).take i = sorted.take i :=
        List.take_append_of_le_length (le_of_lt hi)
      rw [htake]
      have htk := orderOk i hi nd hnd2 (by rw [hid, hget_eq]) r hr
      exact htk
    · have hi2 : i = sorted.length := by
        simp only [List.length_append, List.length_singleton] at h
        omega
      subst hi2
      have hget_eq : (sorted ++ [q]).get ⟨sorted.length, h⟩ = q := by
        simp
      have htake : (sorted ++ [q]).take sorted.length = sorted := by
        rw [List.take_append_of_le_length (le_refl _), List.take_length]
      rw [htake]
      have h0 : alGet deg nd.id = 0 := by
        rw [hid, hget_eq]
        exact hq_deg0
      have hd := degEq nd hnd2
      rw [h0] at hd
      have hz2 : (((producersOf nd).filter (fun r => decide (r ∉ sorted))).length) = 0 := by
        omega
      exact (flen_zero_iff _ _).mp hz2 r hr

/-- Running the Kahn loop from an invariant state terminates in an
invariant state with an empty queue over the returned id order. -/
theorem kahnLoop_final (g : StrategyGraph) :
    ∀ (fuel : ℕ) (deg : List (String × ℤ)) (queue sorted : List String),
      queue.length + degSum deg ≤ fuel →
      Wellformed g →
      KahnInv g deg queue sorted →
      ∃ deg2, KahnInv g deg2 [] (kahnLoop (adjOf g.nodes) deg queue sorted)
  | _, deg, [], _, _, _, inv => by
    rw [kahnLoop_nil]
    exact ⟨deg, inv⟩
  | 0, deg, q :: rest, sorted, hfuel, _, _ => by
    rw [List.length_cons] at hfuel
    omega
  | fuel + 1, deg, q :: rest, sorted, hfuel, hwf, inv => by
    rw [kahnLoop_cons]
    have hstep := kahnInv_step g hwf deg q rest sorted inv
    have hmeas := foldl_relaxOne_measure (adjOf g.nodes q) (deg, rest)
    dsimp only at hmeas
    refine kahnLoop_final g fuel _ _ _ ?_ hwf hstep
    rw [List.length_cons] at hfuel
    omega

/-- Every non-initial vertex of a producer→consumer path has a
predecessor edge from a vertex of the path. -/
theorem path_pred (g : StrategyGraph) : ∀ (l : List String) (a b : String),
    isPath g a l b → ∀ c ∈ l ++ [b], ∃ p ∈ a :: l, edgeB g p c = true
  | [], a, b, hp, c, hc => by
    simp only [List.nil_append, List.mem_singleton] at hc
    subst hc
    exact ⟨a, List.mem_cons_self a [], hp⟩
  | y :: t, a, b, hpath, c, hc => by
    obtain ⟨he, hrest⟩ := hpath
    rcases List.mem_cons.mp hc with h1 | h2
    · subst h1
      exact ⟨a, List.mem_cons_self a _, he⟩
    · obtain ⟨p, hp1, hp2⟩ := path_pred g t y b hrest c h2
      exact ⟨p, List.mem_cons_of_mem a hp1, hp2⟩

/-- On a cycle, every vertex has a predecessor on the cycle. -/
theorem cycle_pred (g : StrategyGraph) (x : String) (l : List String)
    (hp : isPath g x l x) :
    ∀ c ∈ x :: l, ∃ p ∈ x :: l, edgeB g p c = true := by
  intro c hc
  have hc2 : c ∈ l ++ [x] := by
    rcases List.mem_cons.mp hc with h1 | h2
    · simp [h1]
    · simp [h2]
  exact path_pred g l x x hp c hc2

/-- An edge witnesses a consumer node declaring the producer. -/
theorem edgeB_elim (g : StrategyGraph) (p c : String) (h : edgeB g p c = true) :
    ∃ n ∈ g.nodes, n.id = c ∧ p ∈ producersOf n := by
  simp only [edgeB, List.any_eq_true, Bool.and_eq_true] at h
  obtain ⟨n, hn, h1, h2⟩ := h
  refine ⟨n, hn, by simpa using h1, by simpa using h2⟩

/-- A declared producer reference gives an edge. -/
theorem edgeB_intro (g : StrategyGraph) (n : Node) (hn : n ∈ g.nodes)
    (p : String) (hp : p ∈ producersOf n) : edgeB g p n.id = true := by
  simp only [edgeB, List.any_eq_true, Bool.and_eq_true]
  exact ⟨n, hn, by simp, by simpa⟩

/-- An edge's target is a declared node id. -/
theorem edgeB_target_id (g : StrategyGraph) (p c : String)
    (h : edgeB g p c = true) : c ∈ NodeIds g := by
  obtain ⟨n, hn, hid, _⟩ := edgeB_elim g p c h
  exact hid ▸ List.mem_map.mpr ⟨n, hn, rfl⟩

/-- Under the producers-first ordering property, no vertex of a cycle
is ever emitted by the Kahn loop. -/
theorem cycle_not_emitted (g : StrategyGraph) (sorted : List String)
    (hord : ∀ i (h : i < sorted.length), ∀ nd ∈ g.nodes,
      nd.id = sorted.get ⟨i, h⟩ → ∀ r ∈ producersOf nd, r ∈ sorted.take i)
    (x : String) (l : List String) (hp : isPath g x l x) :
    ∀ c ∈ x :: l, c ∉ sorted := by
  have main : ∀ i, ∀ c ∈ x :: l, c ∉ sorted.take i := by
    intro i
    induction i with
    | zero =>
      intro c _ hc
      simp at hc
    | succ k ih =>
      intro c hc hck
      rcases lt_or_ge k sorted.length with hk | hk
      · have htk : sorted.take (k + 1) = sorted.take k ++ [sorted.get ⟨k, hk⟩] := by
          rw [← List.take_concat_get sorted k hk]
          simp
        rw [htk] at hck
        rcases List.mem_append.mp hck with h1 | h2
        · exact ih c hc h1
        · have hck2 : c = sorted.get ⟨k, hk⟩ := by simpa using h2
          obtain ⟨p, hpc, hedge⟩ := cycle_pred g x l hp c hc
          obtain ⟨nd, hnd2, hndid, hpprod⟩ := edgeB_elim g p c hedge
          have hr := hord k hk nd hnd2 (by rw [hndid, hck2]) p hpprod
          exact ih p hpc hr
      · have htk : sorted.take (k + 1) = sorted.take k := by
          rw [List.take_of_length_le hk, List.take_of_length_le (le_trans hk (Nat.le_succ k))]
        rw [htk] at hck
        exact ih c hc hck
  intro c hc hcs
  refine main sorted.length c hc ?_
  rw [List.take_length]
  exact hcs

/-- A cyclic graph leaves at least one node unemitted, so the
defensive count re-check fires. -/
theorem sorted_missing_of_cycle (g : StrategyGraph) (deg2 : List (String × ℤ))
    (sortedIds : List String) (hwf : Wellformed g)
    (hinv : KahnInv g deg2 [] sortedIds) (hcyc : hasCycle g) :
    sortedIds.length ≠ g.nodes.length := by
  obtain ⟨x, l, hp⟩ := hcyc
  obtain ⟨p, hpmem, hedge⟩ := cycle_pred g x l hp x (List.mem_cons_self x l)
  have hxid : x ∈ NodeIds g := edgeB_target_id g p x hedge
  have hnodup : sortedIds.Nodup := by
    have h1 := hinv.nodup
    simpa using h1
  have hsubset : sortedIds ⊆ NodeIds g := by
    intro a ha
    exact hinv.subset a (by simpa using ha)
  have hxnot : x ∉ sortedIds :=
    cycle_not_emitted g sortedIds hinv.orderOk x l hp x (List.mem_cons_self x l)
  intro hlen
  have hperm : sortedIds.Perm (NodeIds g) := by
    have hsub : sortedIds.Subperm (NodeIds g) := hnodup.subperm hsubset
    refine hsub.perm_of_length_le ?_
    rw [hlen]
    simp [NodeIds]
  exact hxnot (hperm.mem_iff.mpr hxid)

/-- In an acyclic graph, the Kahn loop emits every node: otherwise an
unemitted node always has an unemitted producer, and following
producers forever repeats a vertex, yielding a cycle. -/
theorem acyclic_all_emitted (g : StrategyGraph) (deg2 : List (String × ℤ))
    (sortedIds : List String) (hwf : Wellformed g)
    (hinv : KahnInv g deg2 [] sortedIds) (hnc : ¬ hasCycle g) :
    ∀ x ∈ NodeIds g, x ∈ sortedIds := by
  by_contra hcon
  push_neg at hcon
  obtain ⟨x0, hx0, hx0n⟩ := hcon
  have hstep : ∀ x, x ∈ NodeIds g → x ∉ sortedIds →
      ∃ y, y ∈ NodeIds g ∧ y ∉ sortedIds ∧ edgeB g y x = true := by
    intro x hx hxn
    obtain ⟨n, hn, hnid⟩ := List.mem_map.mp hx
    have hz := hinv.zeroChar n hn
    have hne0 : ¬ alGet deg2 n.id = 0 := by
      intro h0
      exact hxn (by simpa [hnid] using hz.mp h0)
    have hd := hinv.degEq n hn
    have hflen : ¬ (((producersOf n).filter
        (fun r => decide (r ∉ sortedIds))).length = 0) := by
      intro h0
      refine hne0 ?_
      rw [hd, h0]
      rfl
    have hex : ∃ r ∈ producersOf n, r ∉ sortedIds := by
      by_contra hc2
      push_neg at hc2
      exact hflen ((flen_zero_iff _ _).mpr hc2)
    obtain ⟨r, hr, hrn⟩ := hex
    refine ⟨r, hwf.2 n hn r hr, hrn, ?_⟩
    rw [← hnid]
    exact edgeB_intro g n hn r hr
  have hstep2 : ∀ x : {a : String // a ∈ NodeIds g ∧ a ∉ sortedIds},
      ∃ y : {a : String // a ∈ NodeIds g ∧ a ∉ sortedIds}, edgeB g y.1 x.1 = true := by
    rintro ⟨x, hx1, hx2⟩
    obtain ⟨y, hy1, hy2, hy3⟩ := hstep x hx1 hx2
    exact ⟨⟨y, hy1, hy2⟩, hy3⟩
  choose nxt hnxt using hstep2
  let f : ℕ → {a : String // a ∈ NodeIds g ∧ a ∉ sortedIds} :=
    fun k => nxt^[k] ⟨x0, hx0, hx0n⟩
  have hfe : ∀ k, f (k + 1) = nxt (f k) := by
    intro k
    exact Function.iterate_succ_apply' nxt k ⟨x0, hx0, hx0n⟩
  have hedge : ∀ k, edgeB g (f (k + 1)).1 (f k).1 = true := by
    intro k
    rw [hfe k]
    exact hnxt (f k)
  have hpath : ∀ d a, ∃ l, isPath g (f (a + d + 1)).1 l (f a).1 := by
    intro d
    induction d with
    | zero =>
      intro a
      exact ⟨[], hedge a⟩
    | succ e ih =>
      intro a
      obtain ⟨l, hl⟩ := ih a
      exact ⟨(f (a + e + 1)).1 :: l, hedge (a + e + 1), hl⟩
  have mkcycle : ∀ a b : ℕ, a < b → (f a).1 = (f b).1 → False := by
    intro a b hab heq
    obtain ⟨l, hl⟩ := hpath (b - a - 1) a
    have hidx : a + (b - a - 1) + 1 = b := by omega
    rw [hidx] at hl
    rw [heq] at hl
    exact hnc ⟨(f b).1, l, hl⟩
  have hcard : ((NodeIds g).toFinset).card <
      (Finset.univ : Finset (Fin ((NodeIds g).length + 1))).card := by
    rw [Finset.card_univ, Fintype.card_fin]
    exact Nat.lt_succ_of_le (List.toFinset_card_le _)
  have hmapsto : ∀ k ∈ (Finset.univ : Finset (Fin ((NodeIds g).length + 1))),
      (f k.val).1 ∈ (NodeIds g).toFinset := by
    intro k _
    rw [List.mem_toFinset]
    exact (f k.val).2.1
  obtain ⟨i, _, j, _, hij, hFij⟩ :=
    Finset.exists_ne_map_eq_of_card_lt_of_maps_to hcard hmapsto
  rcases lt_or_gt_of_ne hij with h | h
  · exact mkcycle i.val j.val h hFij
  · exact mkcycle j.val i.val h hFij.symm

/-- Under unique ids, the `node_map` lookup of a declared node id
returns that node. -/
theorem find_node_of_id : ∀ (nodes : List Node),
    (nodes.map (fun n => n.id)).Nodup →
    ∀ n ∈ nodes, nodes.find? (fun m => m.id = n.id) = some n
  | [], _, n, hn => absurd hn (List.not_mem_nil n)
  | m :: t, hnd, n, hn => by
    simp only [List.map_cons, List.nodup_cons] at hnd
    rcases List.mem_cons.mp hn with h1 | h2
    · subst h1
      rw [List.find?_cons_of_pos _ (by simp)]
    · have hne : ¬ (m.id = n.id) := by
        intro he
        exact hnd.1 (he ▸ List.mem_map.mpr ⟨n, h2, rfl⟩)
      rw [List.find?_cons_of_neg _ (by simpa using hne)]
      exact find_node_of_id t hnd.2 n h2

/-- Mapping the sorted ids back through `node_map` and re-projecting
ids is the identity on the sorted ids. -/
theorem order_map_id (g : StrategyGraph) (hnd : (NodeIds g).Nodup) :
    ∀ (sortedIds : List String), (∀ i ∈ sortedIds, i ∈ NodeIds g) →
      ((sortedIds.filterMap (fun i => g.nodes.find? (fun n => n.id = i))).map
        (fun n => n.id)) = sortedIds
  | [], _ => rfl
  | i :: rest, hsub => by
    have hi : i ∈ NodeIds g := hsub i (List.mem_cons_self i rest)
    obtain ⟨n, hn, hnid⟩ := List.mem_map.mp hi
    have hfind : g.nodes.find? (fun m => m.id = i) = some n := by
      rw [← hnid]
      exact find_node_of_id g.nodes hnd n hn
    rw [List.filterMap_cons_some (f := fun j => g.nodes.find? (fun n => n.id = j)) hfind,
      List.map_cons, hnid,
      order_map_id g hnd rest (fun j hj => hsub j (List.mem_cons_of_mem i hj))]

/-- A successful context lookup exhibits a stored entry. -/
theorem ctxFind_mem_of_some {α : Type} (ctx : List ((String × String) × α))
    (k : String × String) (w : α) (h : ctxFind ctx k = some w) : (k, w) ∈ ctx := by
  unfold ctxFind at h
  cases hf : ctx.find? (fun p => p.1 = k) with
  | none =>
    rw [hf] at h
    simp at h
  | some p0 =>
    rw [hf] at h
    have hp := List.find?_some hf
    have h1 : p0.1 = k := by simpa using hp
    have h2 : p0.2 = w := by simpa using h
    have h3 := List.mem_of_find?_eq_some hf
    rw [← h1, ← h2]
    exact h3

/-- A stored entry makes the context lookup succeed (with some value,
the first match). -/
theorem ctxFind_some_of_mem {α : Type} (ctx : List ((String × String) × α))
    (k : String × String) (v : α) (h : (k, v) ∈ ctx) :
    ∃ w, ctxFind ctx k = some w := by
  have hsome : (ctx.find? (fun p => p.1 = k)).isSome := by
    rw [List.find?_isSome]
    exact ⟨(k, v), h, by simp⟩
  obtain ⟨p, hp⟩ := Option.isSome_iff_exists.mp hsome
  refine ⟨p.2, ?_⟩
  unfold ctxFind
  rw [hp]
  rfl

/-- Input resolution succeeds when every referenced output is present
in the context. -/
theorem resolveInputs_ok {α : Type} (ctx : List ((String × String) × α)) :
    ∀ (inputs : List (String × String × String)),
      (∀ ik r rk, (ik, r, rk) ∈ inputs → ∃ v, ctxFind ctx (r, rk) = some v) →
      ∃ ins, resolveInputs ctx inputs = Except.ok ins
  | [], _ => ⟨[], rfl⟩
  | (ik, r, rk) :: rest, h => by
    obtain ⟨v, hv⟩ := h ik r rk (List.mem_cons_self _ _)
    obtain ⟨ins, hins⟩ := resolveInputs_ok ctx rest
      (fun ik2 r2 rk2 hm => h ik2 r2 rk2 (List.mem_cons_of_mem _ hm))
    refine ⟨(ik, v) :: ins, ?_⟩
    rw [resolveInputs, hv, hins]
    rfl

/-- The per-node execution loop succeeds, given that each remaining
node's producers are all scheduled earlier (in `done` or before it in
the remainder) and the context already covers `done`. -/
theorem executeSorted_ok {α : Type} (g : StrategyGraph)
    (evalNode : Node → List (String × α) → List (String × α))
    (hE : Emits evalNode g) :
    ∀ (rest : List Node) (ctx : List ((String × String) × α)) (done : List String),
      (∀ n ∈ rest, n ∈ g.nodes) →
      (∀ k (hk : k < rest.length), ∀ r ∈ producersOf (rest.get ⟨k, hk⟩),
        r ∈ done ++ (rest.take k).map (fun n => n.id)) →
      CtxHas g ctx done →
      ∃ ctx2, executeSorted evalNode rest ctx = Except.ok ctx2
  | [], ctx, _, _, _, _ => ⟨ctx, rfl⟩
  | n :: rest2, ctx, done, hmem, hprod, hctx => by
    have hn : n ∈ g.nodes := hmem n (List.mem_cons_self _ _)
    have hres : ∀ ik r rk, (ik, r, rk) ∈ n.inputs →
        ∃ v, ctxFind ctx (r, rk) = some v := by
      intro ik r rk hin
      have hr : r ∈ producersOf n := by
        simp only [producersOf, List.mem_map]
        exact ⟨(ik, r, rk), hin, rfl⟩
      have hrd : r ∈ done := by
        have h0 := hprod 0 (by simp) r hr
        simpa using h0
      exact hctx r hrd rk ⟨n, hn, ik, hin⟩
    obtain ⟨ins, hins⟩ := resolveInputs_ok ctx n.inputs hres
    have hexec : executeNode evalNode n ctx =
        Except.ok ((evalNode n ins).map (fun p => ((n.id, p.1), p.2))) := by
      rw [executeNode, hins]
      rfl
    have hctx2 : CtxHas g (ctx ++ (evalNode n ins).map (fun p => ((n.id, p.1), p.2)))
        (done ++ [n.id]) := by
      intro p hp rk hrk
      rcases List.mem_append.mp hp with hp1 | hp2
      · obtain ⟨v, hv⟩ := hctx p hp1 rk hrk
        have hm := ctxFind_mem_of_some ctx (p, rk) v hv
        exact ctxFind_some_of_mem _ (p, rk) v (List.mem_append_left _ hm)
      · have hpq : p = n.id := by simpa using hp2
        subst hpq
        have hemit := hE n hn ins rk hrk
        obtain ⟨pr, hpr, hprid⟩ := List.mem_map.mp hemit
        have hmem2 : ((n.id, rk), pr.2) ∈
            (evalNode n ins).map (fun q => ((n.id, q.1), q.2)) := by
          refine List.mem_map.mpr ⟨pr, hpr, ?_⟩
          rw [hprid]
        exact ctxFind_some_of_mem _ (n.id, rk) pr.2 (List.mem_append_right _ hmem2)
    have hprod2 : ∀ k (hk : k < rest2.length), ∀ r ∈ producersOf (rest2.get ⟨k, hk⟩),
        r ∈ (done ++ [n.id]) ++ (rest2.take k).map (fun m => m.id) := by
      intro k hk r hr
      have h0 := hprod (k + 1) (by simpa using Nat.succ_lt_succ hk) r hr
      simp only [List.mem_append, List.mem_cons, List.mem_singleton,
        List.take_succ_cons, List.map_cons] at h0 ⊢
      tauto
    obtain ⟨ctx2, hctx3⟩ := executeSorted_ok g evalNode hE rest2 _ (done ++ [n.id])
      (fun m hm => hmem m (List.mem_cons_of_mem n hm)) hprod2 hctx2
    refine ⟨ctx2, ?_⟩
    simp only [executeSorted]
    rw [hexec, exceptBindOk]
    exact hctx3

/-- A rank function strictly increasing along edges rules out cycles. -/
theorem no_cycle_of_rank (g : StrategyGraph) (rank : String → ℕ)
    (hr : ∀ p c, edgeB g p c = true → rank p < rank c) : ¬ hasCycle g := by
  rintro ⟨x, l, hp⟩
  have key : ∀ (l2 : List String) (a b : String), isPath g a l2 b → rank a < rank b := by
    intro l2
    induction l2 with
    | nil =>
      intro a b h
      exact hr a b h
    | cons y t ih =>
      intro a b hh
      exact lt_trans (hr a y hh.1) (ih y b hh.2)
  exact lt_irrefl _ (key l x x hp)

/-- The sort-and-execute outcome, parameterized by a final invariant
state of the Kahn loop. -/
theorem topologicalSort_outcome {α : Type}
    (evalNode : Node → List (String × α) → List (String × α))
    (g : StrategyGraph) (hwf : Wellformed g)
    (deg2 : List (String × ℤ)) (sIds : List String)
    (hinv : KahnInv g deg2 [] sIds)
    (hts : topologicalSort g =
      (if sIds.length ≠ g.nodes.length then Except.error "Graph contains cycles"
       else Except.ok (sIds.filterMap (fun i => g.nodes.find? (fun n => n.id = i))))) :
    (¬ hasCycle g →
      ∃ order : List Node,
        topologicalSort g = Except.ok order ∧
        (order.map (fun n => n.id)).Perm (NodeIds g) ∧
        (∀ k (hk : k < (order.map (fun n => n.id)).length), ∀ nd ∈ g.nodes,
          nd.id = (order.map (fun n => n.id)).get ⟨k, hk⟩ →
          ∀ r ∈ producersOf nd, r ∈ (order.map (fun n => n.id)).take k) ∧
        (Emits evalNode g → ∃ ctx, execute evalNode g = Except.ok ctx)) ∧
    (hasCycle g →
      topologicalSort g = Except.error "Graph contains cycles" ∧
      execute evalNode g = Except.error "Graph contains cycles") := by
  constructor
  · intro hnc
    have hcomplete := acyclic_all_emitted g deg2 sIds hwf hinv hnc
    have hnodup : sIds.Nodup := by
      have h1 := hinv.nodup
      simpa using h1
    have hsubset : ∀ x ∈ sIds, x ∈ NodeIds g := fun x hx =>
      hinv.subset x (by simpa using hx)
    have hperm : sIds.Perm (NodeIds g) := by
      have h1 : sIds.Subperm (NodeIds g) := hnodup.subperm hsubset
      refine h1.perm_of_length_le ?_
      exact (hwf.1.subperm hcomplete).length_le
    have hlen : sIds.length = g.nodes.length := by
      have h2 := hperm.length_eq
      simpa [NodeIds] using h2
    have htok : topologicalSort g =
        Except.ok (sIds.filterMap (fun i => g.nodes.find? (fun n => n.id = i))) := by
      rw [hts, if_neg (by omega)]
    have hmap : ((sIds.filterMap (fun i => g.nodes.find? (fun n => n.id = i))).map
        (fun n => n.id)) = sIds :=
      order_map_id g hwf.1 sIds hsubset
    refine ⟨sIds.filterMap (fun i => g.nodes.find? (fun n => n.id = i)),
      htok, ?_, ?_, ?_⟩
    · rw [hmap]
      exact hperm
    · rw [hmap]
      exact hinv.orderOk
    · intro hE
      have hmemG : ∀ m ∈ sIds.filterMap (fun i => g.nodes.find? (fun n => n.id = i)),
          m ∈ g.nodes := by
        intro m hm
        obtain ⟨i2, hi2, hfind⟩ := List.mem_filterMap.mp hm
        exact List.mem_of_find?_eq_some hfind
      have horder : ∀ k
          (hk : k < (sIds.filterMap (fun i => g.nodes.find? (fun n => n.id = i))).length),
          ∀ r ∈ producersOf ((sIds.filterMap
            (fun i => g.nodes.find? (fun n => n.id = i))).get ⟨k, hk⟩),
          r ∈ (((sIds.filterMap (fun i => g.nodes.find? (fun n => n.id = i))).take k).map
            (fun n => n.id)) := by
        intro k hk r hr
        have hlen2 : sIds.length =
            (sIds.filterMap (fun i => g.nodes.find? (fun n => n.id = i))).length := by
          conv_lhs => rw [← hmap]
          exact List.length_map _ _
        have hk2 : k < sIds.length := by omega
        have h6 : sIds[k]? = some (((sIds.filterMap
            (fun i => g.nodes.find? (fun n => n.id = i))).get ⟨k, hk⟩).id) := by
          conv_lhs => rw [← hmap]
          rw [List.getElem?_map, List.getElem?_eq_getElem hk]
          rfl
        have h7 : sIds[k]? = some (sIds.get ⟨k, hk2⟩) := by
          rw [List.getElem?_eq_getElem hk2, List.get_eq_getElem]
        have hgetid : ((sIds.filterMap
            (fun i => g.nodes.find? (fun n => n.id = i))).get ⟨k, hk⟩).id =
            sIds.get ⟨k, hk2⟩ := by
          rw [h6] at h7
          exact Option.some.inj h7
        have hmemO := List.get_mem (sIds.filterMap
          (fun i => g.nodes.find? (fun n => n.id = i))) k hk
        have h8 := hinv.orderOk k hk2 _ (hmemG _ hmemO) hgetid r hr
        rw [← hmap, ← List.map_take] at h8
        exact h8
      obtain ⟨ctx2, hctx2⟩ := executeSorted_ok g evalNode hE
        (sIds.filterMap (fun i => g.nodes.find? (fun n => n.id = i))) [] []
        hmemG
        (by
          intro k hk r hr
          have h0 := horder k hk r hr
          simpa using h0)
        (by
          intro p hp
          simp at hp)
      refine ⟨ctx2, ?_⟩
      rw [execute, htok]
      exact hctx2
  · intro hcyc
    have hlen := sorted_missing_of_cycle g deg2 sIds hwf hinv hcyc
    have hterr : topologicalSort g = Except.error "Graph contains cycles" := by
      rw [hts, if_pos hlen]
    refine ⟨hterr, ?_⟩
    rw [execute, hterr]

/-- The example graph has no cycle: rank a=0, b=1 increases along
every edge. -/
theorem exAcyclic_no_cycle : ¬ hasCycle exAcyclicGraph := by
  refine no_cycle_of_rank exAcyclicGraph (fun s => if s = "a" then 0 else 1) ?_
  intro p c h
  simp only [edgeB, exAcyclicGraph, producersOf, List.any_eq_true,
    Bool.and_eq_true, List.mem_cons, List.mem_singleton] at h
  obtain ⟨n, hn, h1, h2⟩ := h
  rcases hn with h3 | h3 | h3
  · subst h3
    simp at h2
  · subst h3
    have hc : "b" = c := by simpa using h1
    have hp : p = "a" := by simpa using h2
    subst hp
    rw [← hc]
    decide
  · simp at h3

/-- The example evaluator emits every referenced key ("close" is the
only referenced key, and every node emits it). -/
theorem exEmits : Emits exEvalNode exAcyclicGraph := by
  intro nd hnd ins rk hrk
  obtain ⟨c, hc, ik, hik⟩ := hrk
  simp only [exAcyclicGraph, List.mem_cons, List.mem_singleton] at hc
  have hrk2 : rk = "close" := by
    rcases hc with h1 | h1 | h1
    · subst h1
      simp at hik
    · subst h1
      simp only [List.mem_singleton, Prod.mk.injEq] at hik
      exact hik.2.2
    · exact absurd h1 (List.not_mem_nil c)
  subst hrk2
  simp [exEvalNode]

/-- **C5.** For every well-formed strategy graph (unique node ids,
resolvable input references): if the graph is acyclic,
`GraphExecutor._topological_sort` succeeds and the returned schedule
lists every node exactly once (its ids are a permutation of the
declared node ids) with every node's declared producers strictly
earlier in the schedule, and — whenever the node evaluators emit every
referenced output key — `execute` completes, computing each node's
outputs exactly once and only after all of its producers' outputs are
in the context; if the graph contains any directed cycle, both the
sort and `execute` fail fast with the "Graph contains cycles" error of
the defensive count re-check (and, the embedding being total
functions, they terminate rather than hang). -/
theorem graph_executor_topological_soundness {α : Type}
    (evalNode : Node → List (String × α) → List (String × α))
    (g : StrategyGraph) (hwf : Wellformed g) :
    (¬ hasCycle g →
      ∃ order : List Node,
        topologicalSort g = Except.ok order ∧
        (order.map (fun n => n.id)).Perm (NodeIds g) ∧
        (∀ k (hk : k < (order.map (fun n => n.id)).length), ∀ nd ∈ g.nodes,
          nd.id = (order.map (fun n => n.id)).get ⟨k, hk⟩ →
          ∀ r ∈ producersOf nd, r ∈ (order.map (fun n => n.id)).take k) ∧
        (Emits evalNode g → ∃ ctx, execute evalNode g = Except.ok ctx)) ∧
    (hasCycle g →
      topologicalSort g = Except.error "Graph contains cycles" ∧
      execute evalNode g = Except.error "Graph contains cycles") := by
  obtain ⟨deg2, hinv⟩ := kahnLoop_final g
    ((((initDegrees g.nodes).filter (fun p => p.2 = 0)).map (fun p => p.1)).length +
      degSum (initDegrees g.nodes))
    (initDegrees g.nodes)
    (((initDegrees g.nodes).filter (fun p => p.2 = 0)).map (fun p => p.1)) []
    (le_refl _) hwf (kahnInv_init g hwf)
  exact topologicalSort_outcome evalNode g hwf deg2 _ hinv rfl

/-- Witness for `graph_executor_topological_soundness`: the two-node
graph a→b sorts successfully into a permutation of its ids and
executes to a context. -/
theorem graph_executor_topological_soundness_witness :
    ∃ order : List Node,
      topologicalSort exAcyclicGraph = Except.ok order ∧
      (order.map (fun n => n.id)).Perm (NodeIds exAcyclicGraph) ∧
      (∃ ctx, execute exEvalNode exAcyclicGraph = Except.ok ctx) := by
  obtain ⟨order, h1, h2, h3, h4⟩ :=
    (graph_executor_topological_soundness exEvalNode exAcyclicGraph
      ⟨by decide, by decide⟩).1 exAcyclic_no_cycle
  exact ⟨order, h1, h2, h4 exEmits⟩

end DRL
